import Mathlib

/-!
Task registry of `main.go`.

A shallow embedding of the task registry (`Task`, `TaskList`, `AddTask`,
`MarkAsDone`, `ListTasks`) and of the worker / orchestrator code
(`simulateWork`, `main`) of `src/main.go`, followed by the properties proved
about them.

Modelling conventions.

* Go's `int` is modelled by `Int`.  The only arithmetic in the program is
  `len(tl.tasks) + 1`; a slice of `Task` values (each at least 25 bytes) has a
  length far below `2^63 - 1`, so the addition cannot wrap and no reduction
  modulo `2^64` is needed.
* The slice `tl.tasks` is a `List Task`; `append` is list concatenation with a
  singleton and `tl.tasks[i].Done = true` is the positional update `setDone`.
* A method with a pointer receiver becomes a function that takes the registry
  and returns the new registry together with the method's result.  Each method
  holds `tl.mu` from entry to return, so a call is one atomic transition.
* The statement-level model (`Frame`, `Goroutine`, `Concurrent`) does not take
  that for granted: there the mutex is part of the shared state, a method runs
  one statement at a time and the goroutines are interleaved.
* Standard output is a `String`; `fmt.Println` and the `\n` of a `Printf`
  format end a line.
-/

namespace TaskRegistry

/-- The struct `Task` (main.go, lines 8-12). -/
structure Task where
  ID : Int
  Description : String
  Done : Bool
  deriving DecidableEq, Repr

/-- The struct `TaskList` (main.go, lines 15-18); the mutex has no data of its
own and is represented by the atomicity of the three methods. -/
structure TaskList where
  tasks : List Task
  deriving DecidableEq, Repr

/-- The zero value `&TaskList{}` built by `main` (line 88): a nil slice. -/
def TaskList.empty : TaskList := ⟨[]⟩

/-- `AddTask` (main.go, lines 28-39): build the task with
`ID = len(tl.tasks) + 1`, append it, return its ID. -/
def TaskList.AddTask (tl : TaskList) (description : String) : TaskList × Int :=
  let newTask : Task :=
    { ID := (tl.tasks.length : Int) + 1
      Description := description
      Done := false }
  (⟨tl.tasks ++ [newTask]⟩, newTask.ID)

/-- The assignment `tl.tasks[i].Done = true` (main.go, line 48). -/
def setDone : List Task → Nat → List Task
  | [], _ => []
  | t :: ts, 0 => { t with Done := true } :: ts
  | t :: ts, i + 1 => t :: setDone ts i

/-- The verb `%d` of `fmt` applied to an `int`: decimal digits, a leading `-`
for a negative number, no padding. -/
def fmtD (n : Int) : String :=
  if n < 0 then "-" ++ Nat.repr n.natAbs else Nat.repr n.natAbs

/-- The value `fmt.Errorf("task with ID %d not found", id)` (main.go, line 52),
identified with its message. -/
def notFoundError (id : Int) : String :=
  "task with ID " ++ fmtD id ++ " not found"

/-- The `range` loop of `MarkAsDone` (main.go, lines 46-52).  `tasks` is the
whole slice, `i` the current index and the last argument the elements the loop
has still to visit; the result is the slice after the call and the returned
error (`none` for `nil`). -/
def markLoop (id : Int) (tasks : List Task) : Nat → List Task → List Task × Option String
  | _, [] => (tasks, some (notFoundError id))
  | i, task :: rest =>
    if task.ID = id then (setDone tasks i, none)
    else markLoop id tasks (i + 1) rest

/-- `MarkAsDone` (main.go, lines 42-53). -/
def TaskList.MarkAsDone (tl : TaskList) (id : Int) : TaskList × Option String :=
  let r := markLoop id tl.tasks 0 tl.tasks
  (⟨r.1⟩, r.2)

/-- The line `fmt.Printf("[%d] %s - %s\n", ...)` of `ListTasks` without its
final newline (main.go, lines 62-66). -/
def taskLine (task : Task) : String :=
  let status := if task.Done then "Done" else "Not Done"
  "[" ++ fmtD task.ID ++ "] " ++ task.Description ++ " - " ++ status

/-- The `range` loop of `ListTasks` (main.go, lines 61-67): `out` is what has
been written to standard output so far. -/
def listLoop (out : String) : List Task → String
  | [] => out
  | task :: rest => listLoop (out ++ taskLine task ++ "\n") rest

/-- `ListTasks` (main.go, lines 56-68): the registry afterwards and the text
written to standard output. -/
def TaskList.ListTasks (tl : TaskList) : TaskList × String :=
  (tl, listLoop ("Task List:" ++ "\n") tl.tasks)

/-- One call on the registry, as a caller of the `TaskManager` interface
(main.go, lines 21-25) can make it. -/
inductive Op where
  | add (description : String)
  | mark (id : Int)
  | list
  deriving DecidableEq, Repr

/-- What a call hands back: the ID from `AddTask`, the error from `MarkAsDone`
(`none` for `nil`), the text printed by `ListTasks`. -/
inductive Ret where
  | id (n : Int)
  | err (e : Option String)
  | out (s : String)
  deriving DecidableEq, Repr

/-- Executing one call. -/
def step (tl : TaskList) : Op → TaskList × Ret
  | .add d => ((tl.AddTask d).1, .id (tl.AddTask d).2)
  | .mark id => ((tl.MarkAsDone id).1, .err (tl.MarkAsDone id).2)
  | .list => (tl.ListTasks.1, .out tl.ListTasks.2)

/-- Executing a sequence of calls one after the other: the final registry and
the results in call order. -/
def run (tl : TaskList) : List Op → TaskList × List Ret
  | [] => (tl, [])
  | op :: ops => ((run (step tl op).1 ops).1, (step tl op).2 :: (run (step tl op).1 ops).2)

/-- The IDs that the `AddTask` calls of a trace returned, in call order. -/
def issuedIDs : List Ret → List Int
  | [] => []
  | .id n :: rs => n :: issuedIDs rs
  | _ :: rs => issuedIDs rs

/-- The number of `AddTask` calls in a sequence of calls. -/
def numAdds : List Op → Nat
  | [] => 0
  | .add _ :: ops => numAdds ops + 1
  | _ :: ops => numAdds ops

/-- The IDs `k + 1, ..., k + n`, in increasing order. -/
def idsFrom (k n : Nat) : List Int :=
  (List.range n).map (fun j => ((k + j : Nat) : Int) + 1)

/-- The stored task at position `i` carries the ID `i + 1`. -/
def PositionalIDs (tl : TaskList) : Prop :=
  ∀ (i : Nat) (t : Task), tl.tasks[i]? = some t → t.ID = (i : Int) + 1

/-- The registry reached from the empty one by a sequence of calls. -/
def stateAfter (ops : List Op) : TaskList := (run TaskList.empty ops).1

/-- The IDs returned by the `AddTask` calls of a sequence of calls made on the
empty registry. -/
def idsIssued (ops : List Op) : List Int := issuedIDs (run TaskList.empty ops).2

/-- The text made of the given lines, each followed by a line feed. -/
def unlines : List String → String
  | [] => ""
  | l :: ls => l ++ "\n" ++ unlines ls

/-- What identifies a task: its ID and its description. -/
def Task.key (t : Task) : Int × String := (t.ID, t.Description)

/-- A goroutine running `simulateWork` (main.go, lines 71-85) with its local
variables: launched and about to call `AddTask`; back from `AddTask` with `id`
and sleeping; back from `MarkAsDone` with `err`, its message printed and its
signal sent on `done`. -/
inductive Worker where
  | start (taskDesc : String)
  | sleeping (taskDesc : String) (id : Int)
  | finished (taskDesc : String) (id : Int) (err : Option String)
  deriving DecidableEq, Repr

/-- The description a worker was launched with. -/
def Worker.taskDesc : Worker → String
  | .start d => d
  | .sleeping d _ => d
  | .finished d _ _ => d

/-- Whether the worker has sent its signal on `done`. -/
def Worker.isFinished : Worker → Bool
  | .finished _ _ _ => true
  | _ => false

/-- The ID a worker holds after `AddTask`, with its description. -/
def Worker.claim : Worker → Option (Int × String)
  | .start _ => none
  | .sleeping d id => some (id, d)
  | .finished d id _ => some (id, d)

/-- The next registry call of a worker running `simulateWork`: `AddTask` with
its description (line 72), then `MarkAsDone` with the ID it got (line 78); a
finished worker does nothing more. -/
def simulateWork (tl : TaskList) : Worker → TaskList × Worker
  | .start d => ((tl.AddTask d).1, .sleeping d (tl.AddTask d).2)
  | .sleeping d id => ((tl.MarkAsDone id).1, .finished d id (tl.MarkAsDone id).2)
  | .finished d id e => (tl, .finished d id e)

/-- The shared registry and the goroutines launched by `main`, in launch
order. -/
structure System where
  taskList : TaskList
  workers : List Worker
  deriving DecidableEq, Repr

/-- The state after the launch loop of `main` (lines 88-105): an empty registry
and one worker per description. -/
def System.init (taskDescriptions : List String) : System :=
  ⟨TaskList.empty, taskDescriptions.map Worker.start⟩

/-- The scheduler lets worker `k` make its next registry call; the call is
atomic because the method holds the lock.  An index without a worker leaves
the state as it is. -/
def System.step (s : System) (k : Nat) : System :=
  match s.workers[k]? with
  | none => s
  | some w => ⟨(simulateWork s.taskList w).1, s.workers.set k (simulateWork s.taskList w).2⟩

/-- An interleaving: the workers scheduled one after the other. -/
def System.exec (s : System) : List Nat → System
  | [] => s
  | k :: ks => (s.step k).exec ks

/-- Every worker has signalled on `done`: the receive loop of `main`
(lines 108-110) is over. -/
def System.allFinished (s : System) : Bool := s.workers.all Worker.isFinished

/-- The state the workers launched for the descriptions reach under an
interleaving. -/
def finalState (taskDescriptions : List String) (sched : List Nat) : System :=
  (System.init taskDescriptions).exec sched

/-- `main` (lines 87-114) for a list of descriptions under an interleaving of
its workers: once all signals have arrived it prints the listing; `none` while
it still waits. -/
def main (taskDescriptions : List String) (sched : List Nat) : Option String :=
  if (finalState taskDescriptions sched).allFinished
  then some (finalState taskDescriptions sched).taskList.ListTasks.2
  else none

/-- The interleaving in which the workers `n, n + 1, ..., n + m - 1` run one
after the other, each to its end. -/
def seqSched (n : Nat) : Nat → List Nat
  | 0 => []
  | m + 1 => n :: n :: seqSched (n + 1) m

/-- The workers in the order in which an interleaving lets them make their
first step, the call of `AddTask`; `n` is the number of workers and `acc` the
workers that have made it already. -/
def addOrder (n : Nat) (acc : List Nat) : List Nat → List Nat
  | [] => acc
  | k :: ks => if k < n ∧ k ∉ acc then addOrder n (acc ++ [k]) ks else addOrder n acc ks

/-- How a state relates to the workers `acc` that have called `AddTask` so
far, in call order: the workers keep their descriptions, exactly the workers of
`acc` have left their start, and the stored descriptions are those of the
workers of `acc`, in that order. -/
structure System.Tracks (descs : List String) (acc : List Nat) (s : System) : Prop where
  descsOf : s.workers.map Worker.taskDesc = descs
  started : ∀ (k : Nat) (w : Worker), s.workers[k]? = some w → (w.claim = none ↔ k ∉ acc)
  order : s.taskList.tasks.map Task.Description = acc.map (fun k => descs.getD k "")

/-- The invariant of the system of workers: IDs follow positions, the (ID,
description) pairs held by the workers are those of the stored tasks, every
task still open belongs to a sleeping worker, no finished worker got an
error. -/
structure System.Inv (s : System) : Prop where
  positional : PositionalIDs s.taskList
  claims : (s.workers.filterMap Worker.claim).Perm (s.taskList.tasks.map Task.key)
  pending : ∀ t ∈ s.taskList.tasks, t.Done = false →
    ∃ d, Worker.sleeping d t.ID ∈ s.workers
  noError : ∀ (d : String) (id : Int) (e : Option String),
    Worker.finished d id e ∈ s.workers → e = none

/-! ### The methods statement by statement, with the mutex

The definitions above take a method call as one transition.  The definitions
below do not: a goroutine executes a method one statement at a time, other
goroutines run in between, and `tl.mu` is a field of the shared state.
`sync.Mutex` is the standard library's: `Lock` returns once the mutex is free
and takes it, `Unlock` frees it; a goroutine whose `Lock` finds the mutex taken
stays where it is. -/

/-- The statement a goroutine is about to execute inside a registry method
(main.go), with the method's local variables.
`addLock`: line 29; `addBuild`: lines 32-36; `addAppend`: the call of `append`
on line 37; `addStore`: the assignment to `tl.tasks` on line 37; `addReturn`:
line 38 and the deferred `Unlock` of line 30.
`markLock`: line 43; `markRange`: the evaluation of the range expression on
line 46; `markIter`: one iteration of lines 46-51, or line 52 when no element is
left; `markReturn`: the `return` and the deferred `Unlock` of line 44.
`listLock`: line 57; `listHeader`: line 60; `listRange`: the evaluation of the
range expression on line 61; `listIter`: one iteration of lines 61-67;
`listReturn`: the end of the method and the deferred `Unlock` of line 58. -/
inductive Frame where
  | addLock (description : String)
  | addBuild (description : String)
  | addAppend (newTask : Task)
  | addStore (newTask : Task) (appended : List Task)
  | addReturn (newTask : Task)
  | markLock (id : Int)
  | markRange (id : Int)
  | markIter (id : Int) (i : Nat) (rest : List Task)
  | markReturn (err : Option String)
  | listLock
  | listHeader
  | listRange
  | listIter (rest : List Task)
  | listReturn
  deriving DecidableEq, Repr

/-- The first statement of the method a call enters. -/
def Frame.enter : Op → Frame
  | .add d => .addLock d
  | .mark id => .markLock id
  | .list => .listLock

/-- Whether the goroutine is past `tl.mu.Lock()` and before the deferred
`tl.mu.Unlock()`: it executes the body of the method. -/
def Frame.holding : Frame → Bool
  | .addLock _ => false
  | .markLock _ => false
  | .listLock => false
  | _ => true

/-- The slice `tl.tasks` as the rest of the method leaves it when it runs on
the slice `tasks` undisturbed. -/
def Frame.finish (tasks : List Task) : Frame → List Task
  | .addBuild d =>
    tasks ++ [{ ID := (tasks.length : Int) + 1, Description := d, Done := false }]
  | .addAppend t => tasks ++ [t]
  | .addStore _ appended => appended
  | .markRange id => (markLoop id tasks 0 tasks).1
  | .markIter id i rest => (markLoop id tasks i rest).1
  | _ => tasks

/-- The state shared by the goroutines: the registry with its mutex, standard
output, and, as a history variable that no statement reads, the calls in the
order in which they took the mutex. -/
structure Shared where
  taskList : TaskList
  mu : Bool
  stdout : String
  history : List Op
  deriving DecidableEq, Repr

/-- A goroutine that calls registry methods: the statement it is at inside a
method (`none` between calls), the calls it will still make, and the values
its calls have returned. -/
structure Goroutine where
  frame : Option Frame
  todo : List Op
  results : List Ret
  deriving DecidableEq, Repr

/-- Whether the goroutine executes the body of a method. -/
def Goroutine.holding (g : Goroutine) : Bool :=
  match g.frame with
  | some f => f.holding
  | none => false

/-- The `AddTask` calls a goroutine has ahead of it, the one it is waiting
to take the mutex for included. -/
def Goroutine.addsAhead (g : Goroutine) : Nat :=
  numAdds g.todo +
    (match g.frame with
     | some (.addLock _) => 1
     | _ => 0)

/-- The next statement of a goroutine, on the shared state `m`. -/
def Goroutine.step (m : Shared) (g : Goroutine) : Shared × Goroutine :=
  match g.frame with
  | none =>
    match g.todo with
    | [] => (m, g)
    | op :: rest => (m, { g with frame := some (Frame.enter op), todo := rest })
  | some (.addLock d) =>
    if m.mu then (m, g)
    else ({ m with mu := true, history := m.history ++ [Op.add d] },
          { g with frame := some (.addBuild d) })
  | some (.addBuild d) =>
    (m, { g with frame := some (.addAppend
      { ID := (m.taskList.tasks.length : Int) + 1, Description := d, Done := false }) })
  | some (.addAppend t) =>
    (m, { g with frame := some (.addStore t (m.taskList.tasks ++ [t])) })
  | some (.addStore t appended) =>
    ({ m with taskList := ⟨appended⟩ }, { g with frame := some (.addReturn t) })
  | some (.addReturn t) =>
    ({ m with mu := false }, { g with frame := none, results := g.results ++ [Ret.id t.ID] })
  | some (.markLock id) =>
    if m.mu then (m, g)
    else ({ m with mu := true, history := m.history ++ [Op.mark id] },
          { g with frame := some (.markRange id) })
  | some (.markRange id) =>
    (m, { g with frame := some (.markIter id 0 m.taskList.tasks) })
  | some (.markIter id _ []) =>
    (m, { g with frame := some (.markReturn (some (notFoundError id))) })
  | some (.markIter id i (task :: rest)) =>
    if task.ID = id then
      ({ m with taskList := ⟨setDone m.taskList.tasks i⟩ },
       { g with frame := some (.markReturn none) })
    else (m, { g with frame := some (.markIter id (i + 1) rest) })
  | some (.markReturn err) =>
    ({ m with mu := false }, { g with frame := none, results := g.results ++ [Ret.err err] })
  | some .listLock =>
    if m.mu then (m, g)
    else ({ m with mu := true, history := m.history ++ [Op.list] },
          { g with frame := some .listHeader })
  | some .listHeader =>
    ({ m with stdout := m.stdout ++ "Task List:" ++ "\n" }, { g with frame := some .listRange })
  | some .listRange =>
    (m, { g with frame := some (.listIter m.taskList.tasks) })
  | some (.listIter []) =>
    (m, { g with frame := some .listReturn })
  | some (.listIter (task :: rest)) =>
    ({ m with stdout := m.stdout ++ taskLine task ++ "\n" },
     { g with frame := some (.listIter rest) })
  | some .listReturn =>
    ({ m with mu := false }, { g with frame := none })

/-- The shared state and the goroutines that use the registry. -/
structure Concurrent where
  shared : Shared
  goroutines : List Goroutine
  deriving DecidableEq, Repr

/-- An empty registry with a free mutex, and one goroutine per list of calls,
none of them started. -/
def Concurrent.init (programs : List (List Op)) : Concurrent :=
  ⟨⟨TaskList.empty, false, "", []⟩, programs.map (fun p => ⟨none, p, []⟩)⟩

/-- The scheduler lets goroutine `k` execute its next statement. -/
def Concurrent.step (c : Concurrent) (k : Nat) : Concurrent :=
  match c.goroutines[k]? with
  | none => c
  | some g => ⟨(g.step c.shared).1, c.goroutines.set k (g.step c.shared).2⟩

/-- An interleaving of the statements of the goroutines. -/
def Concurrent.exec (c : Concurrent) : List Nat → Concurrent
  | [] => c
  | k :: ks => (c.step k).exec ks

/-- The state reached from `Concurrent.init` under an interleaving. -/
def Concurrent.reach (programs : List (List Op)) (sched : List Nat) : Concurrent :=
  (Concurrent.init programs).exec sched

/-- Every goroutine has returned from all its calls. -/
def Concurrent.quiescent (c : Concurrent) : Bool :=
  c.goroutines.all (fun g => g.frame.isNone && g.todo.isEmpty)

/-- The invariant of the statement-level model: the goroutines inside a method
body are one when the mutex is taken and none when it is free; the method the
holder executes will leave the slice that the calls of the history, executed
one after the other, leave; with the mutex free the registry is that slice. -/
structure Concurrent.Inv (c : Concurrent) : Prop where
  holders : (c.goroutines.filter Goroutine.holding).length = if c.shared.mu then 1 else 0
  finish : ∀ g ∈ c.goroutines, ∀ f, g.frame = some f → f.holding = true →
    f.finish c.shared.taskList.tasks = (stateAfter c.shared.history).tasks
  idle : c.shared.mu = false → c.shared.taskList = stateAfter c.shared.history

/-- A goroutine outside a method body that does not take the mutex: it enters
a method, waits at `Lock`, or has nothing to do. -/
def Goroutine.StaysOutside (m : Shared) (g : Goroutine) : Prop :=
  g.holding = false ∧ (g.step m).2.holding = false ∧ (g.step m).1 = m ∧
    (g.step m).2.addsAhead = g.addsAhead

/-- A goroutine whose `Lock` succeeds for the call `op`. -/
def Goroutine.Acquires (m : Shared) (g : Goroutine) (op : Op) : Prop :=
  g.holding = false ∧ m.mu = false ∧ (g.step m).2.holding = true ∧
    (g.step m).1 = { m with mu := true, history := m.history ++ [op] } ∧
    (∀ f, (g.step m).2.frame = some f →
      f.finish m.taskList.tasks = (TaskRegistry.step m.taskList op).1.tasks) ∧
    (g.step m).2.addsAhead + numAdds [op] = g.addsAhead

/-- A goroutine that executes a statement of a method body and stays in the
body. -/
def Goroutine.StaysInside (m : Shared) (g : Goroutine) : Prop :=
  g.holding = true ∧ (g.step m).2.holding = true ∧ (g.step m).1.mu = m.mu ∧
    (g.step m).1.history = m.history ∧
    (∀ f f', g.frame = some f → (g.step m).2.frame = some f' →
      f'.finish (g.step m).1.taskList.tasks = f.finish m.taskList.tasks) ∧
    (g.step m).2.addsAhead = g.addsAhead

/-- A goroutine that returns from a method: the deferred `Unlock`. -/
def Goroutine.Releases (m : Shared) (g : Goroutine) : Prop :=
  g.holding = true ∧ (g.step m).2.holding = false ∧ (g.step m).1 = { m with mu := false } ∧
    (∀ f, g.frame = some f → f.finish m.taskList.tasks = m.taskList.tasks) ∧
    (g.step m).2.addsAhead = g.addsAhead

/-- The `AddTask` calls that the goroutines have ahead of them. -/
def Concurrent.addsAhead (c : Concurrent) : Nat :=
  (c.goroutines.map Goroutine.addsAhead).sum

/-- The lines of a text: a line ends at a line feed, and what follows the last
line feed, if anything does, is a last line. -/
def textLines : List Char → List (List Char)
  | [] => []
  | c :: cs =>
    if c = '\n' then [] :: textLines cs
    else
      match textLines cs with
      | [] => [[c]]
      | l :: ls => (c :: l) :: ls

/-- The lines of a text written to standard output. -/
def printedLines (out : String) : List String :=
  (textLines out.data).map String.mk

/-- Closed form of the effect of the loop of `MarkAsDone` on the slice, used in
proofs only (`MarkAsDone_eq` relates it to `markLoop`): the first task with the
given ID gets `Done = true`. -/
def markFirst (id : Int) : List Task → List Task
  | [] => []
  | t :: ts => if t.ID = id then { t with Done := true } :: ts else t :: markFirst id ts

/-! ## The loop of `MarkAsDone` -/

theorem setDone_length (ts : List Task) (i : Nat) : (setDone ts i).length = ts.length := by
  induction ts generalizing i with
  | nil => rfl
  | cons t ts ih =>
    cases i with
    | zero => rfl
    | succ i => simp [setDone, ih]

theorem setDone_append (pre : List Task) (t : Task) (post : List Task) :
    setDone (pre ++ t :: post) pre.length = pre ++ { t with Done := true } :: post := by
  induction pre with
  | nil => rfl
  | cons p pre ih => simp [setDone, ih]

theorem markLoop_not_found (id : Int) (tasks rest : List Task) (i : Nat)
    (h : ∀ t ∈ rest, t.ID ≠ id) :
    markLoop id tasks i rest = (tasks, some (notFoundError id)) := by
  induction rest generalizing i with
  | nil => rfl
  | cons t rest ih =>
    have ht : t.ID ≠ id := h t (List.mem_cons_self _ _)
    simp only [markLoop, if_neg ht]
    exact ih (i + 1) (fun u hu => h u (List.mem_cons_of_mem _ hu))

theorem markLoop_found (id : Int) (rest pre : List Task)
    (h : ∃ t ∈ rest, t.ID = id) :
    ∃ mid t post, rest = mid ++ t :: post ∧ (∀ u ∈ mid, u.ID ≠ id) ∧ t.ID = id ∧
      markLoop id (pre ++ rest) pre.length rest
        = (pre ++ mid ++ { t with Done := true } :: post, none) := by
  induction rest generalizing pre with
  | nil => obtain ⟨t, ht, _⟩ := h; cases ht
  | cons a rest ih =>
    by_cases ha : a.ID = id
    · refine ⟨[], a, rest, rfl, ?_, ha, ?_⟩
      · intro u hu; cases hu
      · simp only [markLoop, if_pos ha, setDone_append, List.append_nil]
    · have h2 : ∃ t ∈ rest, t.ID = id := by
        obtain ⟨t, ht, hid⟩ := h
        rcases List.mem_cons.mp ht with rfl | ht
        · exact absurd hid ha
        · exact ⟨t, ht, hid⟩
      obtain ⟨mid, t, post, hr, hmid, hid, hrun⟩ := ih (pre ++ [a]) h2
      refine ⟨a :: mid, t, post, by simp [hr], ?_, hid, ?_⟩
      · intro u hu
        rcases List.mem_cons.mp hu with rfl | hu
        · exact ha
        · exact hmid u hu
      · simp only [markLoop, if_neg ha]
        have e1 : pre ++ a :: rest = (pre ++ [a]) ++ rest := by simp
        have e2 : pre.length + 1 = (pre ++ [a]).length := by simp
        rw [e1, e2, hrun]
        simp

/-- The two outcomes of `MarkAsDone`: no stored task has the ID and the call
returns the error without touching the slice, or the first task with the ID
gets `Done = true` and the call returns `nil`. -/
theorem MarkAsDone_cases (tl : TaskList) (id : Int) :
    ((∀ t ∈ tl.tasks, t.ID ≠ id) ∧ tl.MarkAsDone id = (tl, some (notFoundError id))) ∨
    (∃ pre t post, tl.tasks = pre ++ t :: post ∧ (∀ u ∈ pre, u.ID ≠ id) ∧ t.ID = id ∧
      tl.MarkAsDone id = (⟨pre ++ { t with Done := true } :: post⟩, none)) := by
  by_cases h : ∃ t ∈ tl.tasks, t.ID = id
  · right
    obtain ⟨mid, t, post, hr, hmid, hid, hrun⟩ := markLoop_found id tl.tasks [] h
    refine ⟨mid, t, post, hr, hmid, hid, ?_⟩
    simp only [List.nil_append, List.length_nil] at hrun
    simp [TaskList.MarkAsDone, hrun]
  · left
    have h2 : ∀ t ∈ tl.tasks, t.ID ≠ id := fun t ht hid => h ⟨t, ht, hid⟩
    refine ⟨h2, ?_⟩
    simp [TaskList.MarkAsDone, markLoop_not_found id tl.tasks tl.tasks 0 h2]

theorem getElem?_middle {α : Type} (pre : List α) (t : α) (post : List α) :
    (pre ++ t :: post)[pre.length]? = some t := by
  induction pre with
  | nil => simp
  | cons p pre ih => simpa using ih

theorem getElem?_off_middle {α : Type} (pre : List α) (t t' : α) (post : List α) (j : Nat)
    (h : j ≠ pre.length) : (pre ++ t' :: post)[j]? = (pre ++ t :: post)[j]? := by
  induction pre generalizing j with
  | nil =>
    cases j with
    | zero => exact absurd rfl h
    | succ j => simp
  | cons p pre ih =>
    cases j with
    | zero => simp
    | succ j =>
      have hj : j ≠ pre.length := fun e => h (by simp [e])
      simpa using ih j hj

theorem MarkAsDone_length (tl : TaskList) (id : Int) :
    (tl.MarkAsDone id).1.tasks.length = tl.tasks.length := by
  rcases MarkAsDone_cases tl id with ⟨_, h⟩ | ⟨pre, t, post, ht, _, _, h⟩
  · rw [h]
  · rw [h, ht]; simp

/-- `MarkAsDone` keeps the ID and the description stored at every position. -/
theorem MarkAsDone_getElem? (tl : TaskList) (id : Int) (j : Nat) (u : Task)
    (hu : (tl.MarkAsDone id).1.tasks[j]? = some u) :
    ∃ v, tl.tasks[j]? = some v ∧ v.ID = u.ID ∧ v.Description = u.Description ∧
      (v.Done = true → u.Done = true) := by
  rcases MarkAsDone_cases tl id with ⟨_, h⟩ | ⟨pre, t, post, ht, _, _, h⟩
  · rw [h] at hu
    exact ⟨u, hu, rfl, rfl, fun hd => hd⟩
  · rw [h] at hu
    by_cases hj : j = pre.length
    · subst hj
      rw [show (TaskList.mk (pre ++ { t with Done := true } :: post)).tasks
            = pre ++ { t with Done := true } :: post from rfl, getElem?_middle] at hu
      refine ⟨t, by rw [ht, getElem?_middle], ?_⟩
      cases hu
      exact ⟨rfl, rfl, fun _ => rfl⟩
    · refine ⟨u, ?_, rfl, rfl, fun hd => hd⟩
      rw [ht, ← getElem?_off_middle pre t { t with Done := true } post j hj]
      exact hu

/-! ## The invariant on IDs -/

theorem PositionalIDs_empty : PositionalIDs TaskList.empty := by
  intro i t h
  simp [TaskList.empty] at h

theorem PositionalIDs_AddTask (tl : TaskList) (d : String) (h : PositionalIDs tl) :
    PositionalIDs (tl.AddTask d).1 := by
  intro i t hi
  simp only [TaskList.AddTask] at hi
  rcases Nat.lt_or_ge i tl.tasks.length with hlt | hge
  · rw [List.getElem?_append_left hlt] at hi
    exact h i t hi
  · rw [List.getElem?_append_right hge] at hi
    rcases Nat.eq_zero_or_pos (i - tl.tasks.length) with h0 | hpos
    · rw [h0] at hi
      simp only [List.getElem?_cons_zero, Option.some.injEq] at hi
      have : i = tl.tasks.length := by omega
      subst hi
      simp [this]
    · obtain ⟨k, hk⟩ : ∃ k, i - tl.tasks.length = k + 1 := ⟨i - tl.tasks.length - 1, by omega⟩
      rw [hk] at hi
      simp at hi

theorem PositionalIDs_MarkAsDone (tl : TaskList) (id : Int) (h : PositionalIDs tl) :
    PositionalIDs (tl.MarkAsDone id).1 := by
  intro i t hi
  obtain ⟨v, hv, hid, _, _⟩ := MarkAsDone_getElem? tl id i t hi
  rw [← hid]
  exact h i v hv

theorem PositionalIDs_step (tl : TaskList) (op : Op) (h : PositionalIDs tl) :
    PositionalIDs (step tl op).1 := by
  cases op with
  | add d => exact PositionalIDs_AddTask tl d h
  | mark id => exact PositionalIDs_MarkAsDone tl id h
  | list => exact h

theorem PositionalIDs_run (tl : TaskList) (ops : List Op) (h : PositionalIDs tl) :
    PositionalIDs (run tl ops).1 := by
  induction ops generalizing tl with
  | nil => exact h
  | cons op ops ih => exact ih (step tl op).1 (PositionalIDs_step tl op h)

/-- Under the invariant, a stored task has the ID `id` exactly when `id` lies
between 1 and the length of the registry. -/
theorem PositionalIDs_mem_iff (tl : TaskList) (h : PositionalIDs tl) (id : Int) :
    (∃ t ∈ tl.tasks, t.ID = id) ↔ 1 ≤ id ∧ id ≤ (tl.tasks.length : Int) := by
  constructor
  · rintro ⟨t, ht, hid⟩
    obtain ⟨i, hi, hget⟩ := List.getElem_of_mem ht
    have := h i t (by rw [List.getElem?_eq_getElem hi, hget])
    omega
  · rintro ⟨h1, h2⟩
    have hlt : (id - 1).toNat < tl.tasks.length := by omega
    refine ⟨tl.tasks[(id - 1).toNat], List.getElem_mem _, ?_⟩
    have := h (id - 1).toNat _ (List.getElem?_eq_getElem hlt)
    rw [this]
    omega

/-! ## Traces -/

theorem step_length (tl : TaskList) (op : Op) :
    (step tl op).1.tasks.length = tl.tasks.length + numAdds [op] := by
  cases op with
  | add d => simp [step, TaskList.AddTask, numAdds]
  | mark id => simpa [step, numAdds] using MarkAsDone_length tl id
  | list => simp [step, TaskList.ListTasks, numAdds]

theorem numAdds_cons (op : Op) (ops : List Op) :
    numAdds (op :: ops) = numAdds [op] + numAdds ops := by
  cases op <;> simp [numAdds, Nat.add_comm]

theorem run_length (tl : TaskList) (ops : List Op) :
    (run tl ops).1.tasks.length = tl.tasks.length + numAdds ops := by
  induction ops generalizing tl with
  | nil => rfl
  | cons op ops ih =>
    rw [numAdds_cons]
    simp only [run]
    rw [ih, step_length]
    omega

theorem idsFrom_succ (k n : Nat) :
    idsFrom k (n + 1) = ((k : Int) + 1) :: idsFrom (k + 1) n := by
  simp only [idsFrom, List.range_succ_eq_map, List.map_cons, List.map_map]
  refine congrArg₂ _ (by simp) (List.map_congr_left ?_)
  intro j _
  simp only [Function.comp]
  push_cast
  omega

theorem mem_idsFrom (k n : Nat) (id : Int) :
    id ∈ idsFrom k n ↔ (k : Int) < id ∧ id ≤ (k : Int) + n := by
  simp only [idsFrom, List.mem_map, List.mem_range]
  constructor
  · rintro ⟨j, hj, rfl⟩
    push_cast
    omega
  · rintro ⟨h1, h2⟩
    refine ⟨(id - k - 1).toNat, by omega, ?_⟩
    push_cast
    omega

theorem run_issuedIDs (tl : TaskList) (ops : List Op) :
    issuedIDs (run tl ops).2 = idsFrom tl.tasks.length (numAdds ops) := by
  induction ops generalizing tl with
  | nil => rfl
  | cons op ops ih =>
    cases op with
    | add d =>
      simp only [run, step, issuedIDs, numAdds, idsFrom_succ]
      rw [ih]
      simp [TaskList.AddTask]
    | mark id =>
      simp only [run, step, issuedIDs, numAdds]
      rw [ih, MarkAsDone_length]
    | list =>
      simp only [run, step, issuedIDs, numAdds]
      rw [ih]
      rfl

theorem run_append (tl : TaskList) (a b : List Op) :
    run tl (a ++ b) = ((run (run tl a).1 b).1, (run tl a).2 ++ (run (run tl a).1 b).2) := by
  induction a generalizing tl with
  | nil => rfl
  | cons op a ih =>
    show run tl (op :: (a ++ b)) = _
    simp only [run, ih, List.cons_append]

theorem issuedIDs_append (r s : List Ret) : issuedIDs (r ++ s) = issuedIDs r ++ issuedIDs s := by
  induction r with
  | nil => rfl
  | cons x r ih => cases x <;> simp [issuedIDs, ih]

theorem stateAfter_positional (ops : List Op) : PositionalIDs (stateAfter ops) :=
  PositionalIDs_run TaskList.empty ops PositionalIDs_empty

theorem stateAfter_length (ops : List Op) : (stateAfter ops).tasks.length = numAdds ops := by
  simp [stateAfter, run_length, TaskList.empty]

theorem mem_idsIssued (ops : List Op) (id : Int) :
    id ∈ idsIssued ops ↔ 1 ≤ id ∧ id ≤ (numAdds ops : Int) := by
  simp only [idsIssued, run_issuedIDs, mem_idsFrom, TaskList.empty, List.length_nil]
  push_cast
  omega

/-- An ID was issued exactly when a stored task carries it. -/
theorem mem_idsIssued_iff_stored (ops : List Op) (id : Int) :
    id ∈ idsIssued ops ↔ ∃ t ∈ (stateAfter ops).tasks, t.ID = id := by
  rw [mem_idsIssued, PositionalIDs_mem_iff _ (stateAfter_positional ops), stateAfter_length]

/-! ## The listing -/

theorem listLoop_eq (out : String) (ts : List Task) :
    listLoop out ts = out ++ unlines (ts.map taskLine) := by
  induction ts generalizing out with
  | nil => simp [listLoop, unlines]
  | cons t ts ih => simp [listLoop, unlines, ih, String.append_assoc]

theorem MarkAsDone_keys (tl : TaskList) (id : Int) :
    (tl.MarkAsDone id).1.tasks.map Task.key = tl.tasks.map Task.key := by
  rcases MarkAsDone_cases tl id with ⟨_, h⟩ | ⟨pre, t, post, ht, _, _, h⟩
  · rw [h]
  · rw [h, ht]; simp [Task.key]

theorem run_marks_keys (tl : TaskList) (ids : List Int) :
    (run tl (ids.map Op.mark)).1.tasks.map Task.key = tl.tasks.map Task.key := by
  induction ids generalizing tl with
  | nil => rfl
  | cons id ids ih =>
    simp only [List.map_cons, run, step]
    rw [ih, MarkAsDone_keys]

theorem taskLine_of_keys (before after : List Task)
    (h : after.map Task.key = before.map Task.key) :
    after.map taskLine
      = List.zipWith (fun t u => taskLine { t with Done := u.Done }) before after := by
  induction before generalizing after with
  | nil =>
    cases after with
    | nil => rfl
    | cons a after => simp at h
  | cons b before ih =>
    cases after with
    | nil => simp at h
    | cons a after =>
      simp only [List.map_cons, List.cons.injEq, Task.key, Prod.mk.injEq] at h
      obtain ⟨⟨h1, h2⟩, h3⟩ := h
      simp only [List.map_cons, List.zipWith_cons_cons, ih after h3]
      congr 1
      cases a; cases b
      simp_all

/-! ## The workers -/

theorem exists_split_of_getElem? {α : Type} (l : List α) (k : Nat) (w : α)
    (h : l[k]? = some w) : ∃ pre post, l = pre ++ w :: post ∧ pre.length = k := by
  induction l generalizing k with
  | nil => simp at h
  | cons a l ih =>
    cases k with
    | zero =>
      simp only [List.getElem?_cons_zero, Option.some.injEq] at h
      subst h
      exact ⟨[], l, rfl, rfl⟩
    | succ k =>
      simp only [List.getElem?_cons_succ] at h
      obtain ⟨pre, post, e, hl⟩ := ih k h
      refine ⟨a :: pre, post, ?_, by simp [hl]⟩
      rw [e]
      rfl

theorem set_middle {α : Type} (pre post : List α) (w w' : α) :
    (pre ++ w :: post).set pre.length w' = pre ++ w' :: post := by
  induction pre with
  | nil => rfl
  | cons p pre ih => simp [ih]

/-- A scheduling step either changes nothing or replaces one worker by its
successor and the registry by the one its call leaves. -/
theorem System.step_cases (s : System) (k : Nat) :
    s.step k = s ∨
    ∃ pre w post, s.workers = pre ++ w :: post ∧ pre.length = k ∧
      s.step k = ⟨(simulateWork s.taskList w).1, pre ++ (simulateWork s.taskList w).2 :: post⟩ := by
  cases h : s.workers[k]? with
  | none => left; simp [System.step, h]
  | some w =>
    right
    obtain ⟨pre, post, e, hl⟩ := exists_split_of_getElem? s.workers k w h
    refine ⟨pre, w, post, e, hl, ?_⟩
    simp only [System.step, h]
    rw [e, ← hl, set_middle]

theorem MarkAsDone_stored (tl : TaskList) (hpos : PositionalIDs tl) (id : Int)
    (hex : ∃ t ∈ tl.tasks, t.ID = id) :
    (tl.MarkAsDone id).2 = none ∧
    ∀ u ∈ (tl.MarkAsDone id).1.tasks, u.ID = id → u.Done = true := by
  rcases MarkAsDone_cases tl id with ⟨hno, _⟩ | ⟨pre, t, post, ht, hpre, htid, h⟩
  · obtain ⟨t, ht, htid⟩ := hex
    exact absurd htid (hno t ht)
  · have hmid : tl.tasks[pre.length]? = some t := by rw [ht, getElem?_middle]
    refine ⟨by rw [h], ?_⟩
    intro u hu huid
    obtain ⟨k, hk, hget⟩ := List.getElem_of_mem hu
    have hk? : (tl.MarkAsDone id).1.tasks[k]? = some u := by
      rw [List.getElem?_eq_getElem hk, hget]
    by_cases hkp : k = pre.length
    · subst hkp
      rw [h] at hk?
      rw [show (TaskList.mk (pre ++ { t with Done := true } :: post)).tasks
            = pre ++ { t with Done := true } :: post from rfl, getElem?_middle] at hk?
      cases hk?
      rfl
    · exfalso
      obtain ⟨v, hv, hvid, _, _⟩ := MarkAsDone_getElem? tl id k u hk?
      have e1 := hpos k v hv
      have e2 := hpos pre.length t hmid
      omega

theorem MarkAsDone_open_mem (tl : TaskList) (id : Int) (u : Task)
    (hu : u ∈ (tl.MarkAsDone id).1.tasks) (hd : u.Done = false) : u ∈ tl.tasks := by
  rcases MarkAsDone_cases tl id with ⟨_, h⟩ | ⟨pre, t, post, ht, _, _, h⟩
  · rw [h] at hu; exact hu
  · rw [h] at hu
    rw [ht]
    simp only [List.mem_append, List.mem_cons] at hu ⊢
    rcases hu with hu | rfl | hu
    · exact Or.inl hu
    · simp at hd
    · exact Or.inr (Or.inr hu)

theorem System.Inv_init (descs : List String) : (System.init descs).Inv := by
  refine ⟨PositionalIDs_empty, ?_, ?_, ?_⟩
  · have : (descs.map Worker.start).filterMap Worker.claim = [] := by
      induction descs with
      | nil => rfl
      | cons d ds ih => simp [Worker.claim]
    simp [System.init, TaskList.empty, this]
  · intro t ht
    simp [System.init, TaskList.empty] at ht
  · intro d id e h
    simp [System.init] at h

theorem System.Inv_step (s : System) (k : Nat) (h : s.Inv) : (s.step k).Inv := by
  rcases System.step_cases s k with e | ⟨pre, w, post, hw, _, e⟩
  · rw [e]; exact h
  · rw [e]
    obtain ⟨hpos, hclaims, hpend, hnoerr⟩ := h
    rw [hw] at hclaims hpend hnoerr
    cases w with
    | start d =>
      refine ⟨PositionalIDs_AddTask _ d hpos, ?_, ?_, ?_⟩
      · simp only [simulateWork, TaskList.AddTask, List.filterMap_append, List.filterMap_cons,
          Worker.claim, List.map_append, List.map_cons, List.map_nil, Task.key] at hclaims ⊢
        refine List.Perm.trans List.perm_middle ?_
        refine List.Perm.trans ?_ (List.perm_append_singleton _ _).symm
        exact List.Perm.cons _ (by simpa using hclaims)
      · intro t ht hd
        simp only [simulateWork, TaskList.AddTask, List.mem_append, List.mem_singleton] at ht
        rcases ht with ht | rfl
        · obtain ⟨d', hd'⟩ := hpend t ht hd
          refine ⟨d', ?_⟩
          simp only [List.mem_append, List.mem_cons] at hd' ⊢
          rcases hd' with hd' | hd' | hd'
          · exact Or.inl hd'
          · cases hd'
          · exact Or.inr (Or.inr hd')
        · exact ⟨d, by simp [simulateWork, TaskList.AddTask]⟩
      · intro d' id e' hm
        simp only [simulateWork, List.mem_append, List.mem_cons] at hm
        rcases hm with hm | hm | hm
        · exact hnoerr d' id e' (by simp [hm])
        · cases hm
        · exact hnoerr d' id e' (by simp [hm])
    | sleeping d id =>
      have hex : ∃ t ∈ s.taskList.tasks, t.ID = id := by
        have hm : (id, d) ∈ (pre ++ Worker.sleeping d id :: post).filterMap Worker.claim := by
          simp [Worker.claim]
        have := (hclaims.mem_iff).mp hm
        simp only [List.mem_map, Task.key, Prod.mk.injEq] at this
        obtain ⟨t, ht, hid, _⟩ := this
        exact ⟨t, ht, hid⟩
      obtain ⟨hnone, hdone⟩ := MarkAsDone_stored s.taskList hpos id hex
      refine ⟨PositionalIDs_MarkAsDone _ id hpos, ?_, ?_, ?_⟩
      · simp only [simulateWork, MarkAsDone_keys]
        simpa [Worker.claim] using hclaims
      · intro t ht hd
        simp only [simulateWork] at ht
        have hne : t.ID ≠ id := by
          intro hid
          have := hdone t ht hid
          rw [hd] at this
          cases this
        obtain ⟨d', hd'⟩ := hpend t (MarkAsDone_open_mem _ id t ht hd) hd
        refine ⟨d', ?_⟩
        simp only [simulateWork, List.mem_append, List.mem_cons] at hd' ⊢
        rcases hd' with hd' | hd' | hd'
        · exact Or.inl hd'
        · cases hd'
          exact absurd rfl hne
        · exact Or.inr (Or.inr hd')
      · intro d' id' e' hm
        simp only [simulateWork, List.mem_append, List.mem_cons] at hm
        rcases hm with hm | hm | hm
        · exact hnoerr d' id' e' (by simp [hm])
        · cases hm
          exact hnone
        · exact hnoerr d' id' e' (by simp [hm])
    | finished d id e' =>
      refine ⟨hpos, ?_, ?_, ?_⟩
      · simpa [simulateWork] using hclaims
      · simpa [simulateWork] using hpend
      · simpa [simulateWork] using hnoerr

theorem System.Inv_exec (s : System) (sched : List Nat) (h : s.Inv) : (s.exec sched).Inv := by
  induction sched generalizing s with
  | nil => exact h
  | cons k ks ih => exact ih (s.step k) (System.Inv_step s k h)

theorem simulateWork_taskDesc (tl : TaskList) (w : Worker) :
    (simulateWork tl w).2.taskDesc = w.taskDesc := by
  cases w <;> rfl

theorem System.step_taskDesc (s : System) (k : Nat) :
    (s.step k).workers.map Worker.taskDesc = s.workers.map Worker.taskDesc := by
  rcases System.step_cases s k with e | ⟨pre, w, post, hw, _, e⟩
  · rw [e]
  · rw [e, hw]
    simp [simulateWork_taskDesc]

theorem System.exec_taskDesc (s : System) (sched : List Nat) :
    (s.exec sched).workers.map Worker.taskDesc = s.workers.map Worker.taskDesc := by
  induction sched generalizing s with
  | nil => rfl
  | cons k ks ih =>
    show ((s.step k).exec ks).workers.map Worker.taskDesc = _
    rw [ih, System.step_taskDesc]

theorem finalState_taskDesc (descs : List String) (sched : List Nat) :
    (finalState descs sched).workers.map Worker.taskDesc = descs := by
  simp only [finalState, System.exec_taskDesc, System.init, List.map_map]
  induction descs with
  | nil => rfl
  | cons d ds ih => simpa [Worker.taskDesc] using ih

theorem claims_of_allFinished (ws : List Worker) (h : ws.all Worker.isFinished = true) :
    (ws.filterMap Worker.claim).map Prod.snd = ws.map Worker.taskDesc := by
  induction ws with
  | nil => rfl
  | cons w ws ih =>
    simp only [List.all_cons, Bool.and_eq_true] at h
    cases w with
    | start d => simp [Worker.isFinished] at h
    | sleeping d id => simp [Worker.isFinished] at h
    | finished d id e => simp [Worker.claim, Worker.taskDesc, ih h.2]

theorem PositionalIDs_map_ID (tl : TaskList) (h : PositionalIDs tl) :
    tl.tasks.map Task.ID
      = (List.range tl.tasks.length).map (fun (j : Nat) => (j : Int) + 1) := by
  apply List.ext_getElem?
  intro i
  rcases Nat.lt_or_ge i tl.tasks.length with hlt | hge
  · have := h i tl.tasks[i] (List.getElem?_eq_getElem hlt)
    simp [List.getElem?_eq_getElem hlt, this, List.getElem?_range hlt]
  · have h2 : (List.range tl.tasks.length).length ≤ i := by simpa using hge
    simp [List.getElem?_eq_none hge, List.getElem?_eq_none h2]

/-- Running the workers `done.length, ...` one after the other to their end
finishes them all. -/
theorem seqSched_finishes (ds : List String) (done : List Worker) (tl : TaskList)
    (h : done.all Worker.isFinished = true) :
    ((System.mk tl (done ++ ds.map Worker.start)).exec
      (seqSched done.length ds.length)).allFinished = true := by
  induction ds generalizing done tl with
  | nil => simpa [seqSched, System.exec, System.allFinished] using h
  | cons d ds ih =>
    have s1 : (System.mk tl (done ++ (d :: ds).map Worker.start)).step done.length
        = ⟨(tl.AddTask d).1,
            done ++ Worker.sleeping d (tl.AddTask d).2 :: ds.map Worker.start⟩ := by
      simp only [System.step, List.map_cons, getElem?_middle, set_middle, simulateWork]
    have s2 : (System.mk (tl.AddTask d).1
          (done ++ Worker.sleeping d (tl.AddTask d).2 :: ds.map Worker.start)).step done.length
        = ⟨((tl.AddTask d).1.MarkAsDone (tl.AddTask d).2).1,
            (done ++ [Worker.finished d (tl.AddTask d).2
              ((tl.AddTask d).1.MarkAsDone (tl.AddTask d).2).2]) ++ ds.map Worker.start⟩ := by
      simp only [System.step, getElem?_middle, set_middle, simulateWork, List.append_assoc,
        List.singleton_append]
    have hl : done.length + 1
        = (done ++ [Worker.finished d (tl.AddTask d).2
              ((tl.AddTask d).1.MarkAsDone (tl.AddTask d).2).2]).length := by simp
    simp only [List.length_cons, seqSched, System.exec, s1, s2]
    rw [hl]
    apply ih
    simp [h, Worker.isFinished]

/-- What holds once every worker has finished. -/
theorem finalState_summary (descs : List String) (sched : List Nat)
    (hfin : (finalState descs sched).allFinished = true) :
    (finalState descs sched).taskList.tasks.length = descs.length ∧
    (finalState descs sched).taskList.tasks.map Task.ID
      = (List.range descs.length).map (fun (j : Nat) => (j : Int) + 1) ∧
    (∀ w ∈ (finalState descs sched).workers, ∃ d id, w = Worker.finished d id none) ∧
    (∀ t ∈ (finalState descs sched).taskList.tasks, t.Done = true) ∧
    ((finalState descs sched).taskList.tasks.map Task.Description).Perm descs := by
  have hinv : (finalState descs sched).Inv := System.Inv_exec _ sched (System.Inv_init descs)
  have hall : ∀ w ∈ (finalState descs sched).workers, w.isFinished = true := by
    simpa [System.allFinished] using hfin
  have hperm : ((finalState descs sched).taskList.tasks.map Task.Description).Perm descs := by
    have h1 := (hinv.claims.map Prod.snd).symm
    rw [claims_of_allFinished _ hfin, finalState_taskDesc] at h1
    simpa [Task.key, Function.comp_def] using h1
  have hlen : (finalState descs sched).taskList.tasks.length = descs.length := by
    simpa using hperm.length_eq
  refine ⟨hlen, ?_, ?_, ?_, hperm⟩
  · rw [PositionalIDs_map_ID _ hinv.positional, hlen]
  · intro w hw
    have hf := hall w hw
    cases w with
    | start d => simp [Worker.isFinished] at hf
    | sleeping d id => simp [Worker.isFinished] at hf
    | finished d id e => exact ⟨d, id, by rw [hinv.noError d id e hw]⟩
  · intro t ht
    cases hd : t.Done with
    | true => rfl
    | false =>
      obtain ⟨d, hm⟩ := hinv.pending t ht hd
      have := hall _ hm
      simp [Worker.isFinished] at this

theorem main_of_allFinished (descs : List String) (sched : List Nat)
    (hfin : (finalState descs sched).allFinished = true)
    (hdone : ∀ t ∈ (finalState descs sched).taskList.tasks, t.Done = true) :
    main descs sched = some ("Task List:\n" ++ unlines
      ((finalState descs sched).taskList.tasks.map
        (fun t => "[" ++ fmtD t.ID ++ "] " ++ t.Description ++ " - " ++ "Done"))) := by
  have hmap : (finalState descs sched).taskList.tasks.map taskLine
      = (finalState descs sched).taskList.tasks.map
        (fun t => "[" ++ fmtD t.ID ++ "] " ++ t.Description ++ " - " ++ "Done") := by
    apply List.map_congr_left
    intro t ht
    simp [taskLine, hdone t ht]
  simp only [main, hfin, if_true, TaskList.ListTasks, listLoop_eq, hmap]
  rfl

theorem MarkAsDone_descriptions (tl : TaskList) (id : Int) :
    (tl.MarkAsDone id).1.tasks.map Task.Description = tl.tasks.map Task.Description := by
  have := congrArg (List.map Prod.snd) (MarkAsDone_keys tl id)
  simpa [Task.key, Function.comp_def] using this

theorem simulateWork_after_start (tl : TaskList) (w : Worker) (h : w.claim ≠ none) :
    (simulateWork tl w).1.tasks.map Task.Description = tl.tasks.map Task.Description ∧
    (simulateWork tl w).2.claim ≠ none := by
  cases w with
  | start d => exact absurd rfl h
  | sleeping d id => exact ⟨MarkAsDone_descriptions tl id, by simp [simulateWork, Worker.claim]⟩
  | finished d id e => exact ⟨rfl, by simp [simulateWork, Worker.claim]⟩

theorem System.Tracks_init (descs : List String) :
    (System.init descs).Tracks descs [] := by
  refine ⟨?_, ?_, rfl⟩
  · simp only [System.init, List.map_map]
    induction descs with
    | nil => rfl
    | cons d ds ih => simpa [Worker.taskDesc] using ih
  · intro k w hk
    simp only [System.init, List.getElem?_map] at hk
    cases hd : descs[k]? with
    | none => simp [hd] at hk
    | some d =>
      simp only [hd, Option.map_some', Option.some.injEq] at hk
      subst hk
      simp [Worker.claim]

theorem System.Tracks_step (descs : List String) (acc : List Nat) (s : System) (k : Nat)
    (h : s.Tracks descs acc) :
    (s.step k).Tracks descs (if k < descs.length ∧ k ∉ acc then acc ++ [k] else acc) := by
  obtain ⟨hdescs, hstarted, horder⟩ := h
  have hlen : s.workers.length = descs.length := by
    rw [← hdescs, List.length_map]
  rcases System.step_cases s k with e | ⟨pre, w, post, hw, hk, e⟩
  · by_cases hc : k < descs.length ∧ k ∉ acc
    · exfalso
      obtain ⟨hlt, hnot⟩ := hc
      have hget : s.workers[k]? = some s.workers[k] := List.getElem?_eq_getElem (hlen ▸ hlt)
      have hstep : s.step k = ⟨(simulateWork s.taskList s.workers[k]).1,
          s.workers.set k (simulateWork s.taskList s.workers[k]).2⟩ := by
        simp only [System.step, hget]
      have hclaim := (hstarted k _ hget).mpr hnot
      have hw' := congrArg (fun t => (System.workers t)[k]?) (hstep.symm.trans e)
      simp only [List.getElem?_set_self (hlen ▸ hlt), hget, Option.some.injEq] at hw'
      rw [← hw'] at hclaim
      revert hclaim
      cases s.workers[k] <;> simp [simulateWork, Worker.claim]
    · rw [if_neg hc, e]
      exact ⟨hdescs, hstarted, horder⟩
  · have hwk : s.workers[k]? = some w := by rw [hw, ← hk, getElem?_middle]
    have hklt : k < descs.length := by
      rw [← hlen, hw, ← hk]; simp
    have hnew : ∀ (j : Nat) (w' : Worker),
        (pre ++ (simulateWork s.taskList w).2 :: post)[j]? = some w' → j ≠ k →
        s.workers[j]? = some w' := by
      intro j w' hj hjk
      rw [hw, ← getElem?_off_middle pre _ (simulateWork s.taskList w).2 post j (hk ▸ hjk)]
      exact hj
    by_cases hc : w.claim = none
    · have hnot : k ∉ acc := (hstarted k w hwk).mp hc
      rw [if_pos ⟨hklt, hnot⟩, e]
      cases w with
      | sleeping d id => simp [Worker.claim] at hc
      | finished d id e' => simp [Worker.claim] at hc
      | start d =>
        refine ⟨?_, ?_, ?_⟩
        · rw [← hdescs, hw]; simp [simulateWork, Worker.taskDesc]
        · intro j w' hj
          by_cases hjk : j = k
          · subst hjk
            rw [← hk, getElem?_middle] at hj
            cases hj
            simp [simulateWork, Worker.claim]
          · rw [hstarted j w' (hnew j w' hj hjk)]
            simp [hjk]
        · have hd : descs[k]? = some d := by
            rw [← hdescs, List.getElem?_map, hwk]
            rfl
          simp [simulateWork, TaskList.AddTask, horder, hd]
    · have hin : ¬ (k < descs.length ∧ k ∉ acc) := by
        intro hc2
        exact hc ((hstarted k w hwk).mpr hc2.2)
      obtain ⟨hdesc, hcl⟩ := simulateWork_after_start s.taskList w hc
      rw [if_neg hin, e]
      refine ⟨?_, ?_, by rw [← horder]; exact hdesc⟩
      · rw [← hdescs, hw]; simp [simulateWork_taskDesc]
      · intro j w' hj
        by_cases hjk : j = k
        · subst hjk
          rw [← hk, getElem?_middle] at hj
          cases hj
          constructor
          · intro h0; exact absurd h0 hcl
          · intro h0; exact absurd ((hstarted _ w hwk).mpr h0) hc
        · exact hstarted j w' (hnew j w' hj hjk)

theorem System.Tracks_exec (descs : List String) (sched : List Nat) (acc : List Nat)
    (s : System) (h : s.Tracks descs acc) :
    (s.exec sched).Tracks descs (addOrder descs.length acc sched) := by
  induction sched generalizing acc s with
  | nil => exact h
  | cons k ks ih =>
    have hs := System.Tracks_step descs acc s k h
    simp only [System.exec, addOrder]
    by_cases hc : k < descs.length ∧ k ∉ acc
    · rw [if_pos hc] at hs ⊢
      exact ih _ _ hs
    · rw [if_neg hc] at hs ⊢
      exact ih _ _ hs

/-- The stored descriptions are those of the workers in the order of their
`AddTask` calls. -/
theorem finalState_order (descs : List String) (sched : List Nat) :
    (finalState descs sched).taskList.tasks.map Task.Description
      = (addOrder descs.length [] sched).map (fun k => descs.getD k "") :=
  (System.Tracks_exec descs sched [] _ (System.Tracks_init descs)).order

theorem tasks_of_columns (l : List Task)
    (hid : l.map Task.ID = [1, 2, 3]) (hdesc : l.map Task.Description = ["A", "B", "C"])
    (hdone : ∀ t ∈ l, t.Done = true) :
    l = [⟨1, "A", true⟩, ⟨2, "B", true⟩, ⟨3, "C", true⟩] := by
  have hlen : l.length = 3 := by
    have := congrArg List.length hid
    simpa using this
  obtain ⟨a, l1, rfl⟩ : ∃ a l1, l = a :: l1 := by
    cases l with
    | nil => simp at hlen
    | cons a l1 => exact ⟨a, l1, rfl⟩
  obtain ⟨b, l2, rfl⟩ : ∃ b l2, l1 = b :: l2 := by
    cases l1 with
    | nil => simp at hlen
    | cons b l2 => exact ⟨b, l2, rfl⟩
  obtain ⟨c, l3, rfl⟩ : ∃ c l3, l2 = c :: l3 := by
    cases l2 with
    | nil => simp at hlen
    | cons c l3 => exact ⟨c, l3, rfl⟩
  have hnil : l3 = [] := by
    cases l3 with
    | nil => rfl
    | cons x l4 => simp at hlen
  subst hnil
  simp only [List.map_cons, List.map_nil, List.cons.injEq, and_true] at hid hdesc
  have ha := hdone a (by simp)
  have hb := hdone b (by simp)
  have hc := hdone c (by simp)
  obtain ⟨a1, a2, a3⟩ := a
  obtain ⟨b1, b2, b3⟩ := b
  obtain ⟨c1, c2, c3⟩ := c
  simp_all

/-! ## Algebra of `MarkAsDone` -/

theorem markFirst_of_absent (id : Int) (l : List Task) (h : ∀ t ∈ l, t.ID ≠ id) :
    markFirst id l = l := by
  induction l with
  | nil => rfl
  | cons t ts ih =>
    have ht : t.ID ≠ id := h t (List.mem_cons_self _ _)
    simp only [markFirst, if_neg ht]
    rw [ih (fun u hu => h u (List.mem_cons_of_mem _ hu))]

theorem markFirst_of_split (id : Int) (pre : List Task) (t : Task) (post : List Task)
    (hpre : ∀ u ∈ pre, u.ID ≠ id) (ht : t.ID = id) :
    markFirst id (pre ++ t :: post) = pre ++ { t with Done := true } :: post := by
  induction pre with
  | nil => simp [markFirst, ht]
  | cons p pre ih =>
    have hp : p.ID ≠ id := hpre p (List.mem_cons_self _ _)
    show markFirst id (p :: (pre ++ t :: post)) = p :: (pre ++ { t with Done := true } :: post)
    simp only [markFirst, if_neg hp]
    rw [ih (fun u hu => hpre u (List.mem_cons_of_mem _ hu))]

/-- `MarkAsDone` in closed form: the slice afterwards and the error returned. -/
theorem MarkAsDone_eq (tl : TaskList) (id : Int) :
    tl.MarkAsDone id
      = (⟨markFirst id tl.tasks⟩,
          if tl.tasks.any (fun t => decide (t.ID = id)) then none
          else some (notFoundError id)) := by
  rcases MarkAsDone_cases tl id with ⟨hno, h⟩ | ⟨pre, t, post, ht, hpre, htid, h⟩
  · have hany : tl.tasks.any (fun t => decide (t.ID = id)) = false := by
      simp only [List.any_eq_false, decide_eq_true_eq]
      exact hno
    rw [h, markFirst_of_absent id _ hno, hany]
    rfl
  · have hany : tl.tasks.any (fun t => decide (t.ID = id)) = true := by
      simp only [List.any_eq_true, decide_eq_true_eq]
      exact ⟨t, by rw [ht]; simp, htid⟩
    rw [h, hany, ht, markFirst_of_split id pre t post hpre htid]
    rfl

theorem markFirst_ids (id : Int) (l : List Task) :
    (markFirst id l).map Task.ID = l.map Task.ID := by
  induction l with
  | nil => rfl
  | cons t ts ih =>
    by_cases ht : t.ID = id
    · simp [markFirst, ht]
    · simp [markFirst, ht, ih]

theorem any_ID_eq (id : Int) (l : List Task) :
    l.any (fun t => decide (t.ID = id)) = (l.map Task.ID).any (fun n => decide (n = id)) := by
  induction l with
  | nil => rfl
  | cons t ts ih => simp [ih]

theorem markFirst_any (a b : Int) (l : List Task) :
    (markFirst a l).any (fun t => decide (t.ID = b)) = l.any (fun t => decide (t.ID = b)) := by
  rw [any_ID_eq, any_ID_eq, markFirst_ids]

theorem markFirst_idem (id : Int) (l : List Task) :
    markFirst id (markFirst id l) = markFirst id l := by
  induction l with
  | nil => rfl
  | cons t ts ih =>
    by_cases ht : t.ID = id
    · simp [markFirst, ht]
    · simp [markFirst, ht, ih]

theorem markFirst_comm (a b : Int) (l : List Task) :
    markFirst b (markFirst a l) = markFirst a (markFirst b l) := by
  induction l with
  | nil => rfl
  | cons t ts ih =>
    by_cases ha : t.ID = a <;> by_cases hb : t.ID = b
    · simp only [markFirst, if_pos ha, if_pos hb]
    · simp only [markFirst, if_pos ha, if_neg hb]
    · simp only [markFirst, if_neg ha, if_pos hb]
    · simp only [markFirst, if_neg ha, if_neg hb, ih]

theorem MarkAsDone_done_getElem? (tl : TaskList) (id : Int) (i : Nat) (t : Task)
    (h : tl.tasks[i]? = some t) (hd : t.Done = true) :
    (tl.MarkAsDone id).1.tasks[i]? = some t := by
  rcases MarkAsDone_cases tl id with ⟨_, e⟩ | ⟨pre, u, post, hu, _, _, e⟩
  · rw [e]; exact h
  · rw [e]
    show (pre ++ { u with Done := true } :: post)[i]? = some t
    by_cases hi : i = pre.length
    · subst hi
      rw [hu, getElem?_middle] at h
      cases h
      rw [getElem?_middle]
      cases t
      simp_all
    · rw [getElem?_off_middle pre u _ post i hi, ← hu]
      exact h

theorem step_done_getElem? (tl : TaskList) (op : Op) (i : Nat) (t : Task)
    (h : tl.tasks[i]? = some t) (hd : t.Done = true) :
    (step tl op).1.tasks[i]? = some t := by
  cases op with
  | add d =>
    have hlt : i < tl.tasks.length := by
      by_contra hge
      rw [List.getElem?_eq_none (Nat.le_of_not_lt hge)] at h
      cases h
    simp only [step, TaskList.AddTask]
    rw [List.getElem?_append_left hlt]
    exact h
  | mark id => exact MarkAsDone_done_getElem? tl id i t h hd
  | list => exact h

/-! ## The mutex -/

theorem Goroutine.statement_cases (m : Shared) (g : Goroutine) :
    g.StaysOutside m ∨ (∃ op, g.Acquires m op) ∨ g.StaysInside m ∨ g.Releases m := by
  obtain ⟨frame, todo, results⟩ := g
  cases frame with
  | none =>
    left
    cases todo with
    | nil => simp [Goroutine.StaysOutside, Goroutine.step, Goroutine.holding]
    | cons op rest =>
      cases op <;>
        simp [Goroutine.StaysOutside, Goroutine.step, Goroutine.holding, Frame.enter,
          Frame.holding, Goroutine.addsAhead, numAdds]
  | some f =>
    cases f with
    | addLock d =>
      cases hmu : m.mu with
      | true =>
        left
        simp [Goroutine.StaysOutside, Goroutine.step, Goroutine.holding, Frame.holding, hmu]
      | false =>
        right; left
        refine ⟨Op.add d, ?_⟩
        simp [Goroutine.Acquires, Goroutine.step, Goroutine.holding, Frame.holding, hmu,
          Frame.finish, TaskRegistry.step, TaskList.AddTask, Goroutine.addsAhead, numAdds]
    | markLock id =>
      cases hmu : m.mu with
      | true =>
        left
        simp [Goroutine.StaysOutside, Goroutine.step, Goroutine.holding, Frame.holding, hmu]
      | false =>
        right; left
        refine ⟨Op.mark id, ?_⟩
        simp [Goroutine.Acquires, Goroutine.step, Goroutine.holding, Frame.holding, hmu,
          Frame.finish, TaskRegistry.step, TaskList.MarkAsDone, Goroutine.addsAhead, numAdds]
    | listLock =>
      cases hmu : m.mu with
      | true =>
        left
        simp [Goroutine.StaysOutside, Goroutine.step, Goroutine.holding, Frame.holding, hmu]
      | false =>
        right; left
        refine ⟨Op.list, ?_⟩
        simp [Goroutine.Acquires, Goroutine.step, Goroutine.holding, Frame.holding, hmu,
          Frame.finish, TaskRegistry.step, TaskList.ListTasks, Goroutine.addsAhead, numAdds]
    | addBuild d =>
      right; right; left
      simp [Goroutine.StaysInside, Goroutine.step, Goroutine.holding, Frame.holding,
        Frame.finish, Goroutine.addsAhead]
    | addAppend t =>
      right; right; left
      simp [Goroutine.StaysInside, Goroutine.step, Goroutine.holding, Frame.holding,
        Frame.finish, Goroutine.addsAhead]
    | addStore t appended =>
      right; right; left
      simp [Goroutine.StaysInside, Goroutine.step, Goroutine.holding, Frame.holding,
        Frame.finish, Goroutine.addsAhead]
    | addReturn t =>
      right; right; right
      simp [Goroutine.Releases, Goroutine.step, Goroutine.holding, Frame.holding,
        Frame.finish, Goroutine.addsAhead]
    | markRange id =>
      right; right; left
      simp [Goroutine.StaysInside, Goroutine.step, Goroutine.holding, Frame.holding,
        Frame.finish, Goroutine.addsAhead]
    | markIter id i rest =>
      right; right; left
      cases rest with
      | nil =>
        simp [Goroutine.StaysInside, Goroutine.step, Goroutine.holding, Frame.holding,
          Frame.finish, Goroutine.addsAhead, markLoop]
      | cons task rest =>
        by_cases ht : task.ID = id
        · simp [Goroutine.StaysInside, Goroutine.step, Goroutine.holding, Frame.holding,
            Frame.finish, Goroutine.addsAhead, markLoop, ht]
        · simp [Goroutine.StaysInside, Goroutine.step, Goroutine.holding, Frame.holding,
            Frame.finish, Goroutine.addsAhead, markLoop, ht]
    | markReturn err =>
      right; right; right
      simp [Goroutine.Releases, Goroutine.step, Goroutine.holding, Frame.holding,
        Frame.finish, Goroutine.addsAhead]
    | listHeader =>
      right; right; left
      simp [Goroutine.StaysInside, Goroutine.step, Goroutine.holding, Frame.holding,
        Frame.finish, Goroutine.addsAhead]
    | listRange =>
      right; right; left
      simp [Goroutine.StaysInside, Goroutine.step, Goroutine.holding, Frame.holding,
        Frame.finish, Goroutine.addsAhead]
    | listIter rest =>
      right; right; left
      cases rest with
      | nil =>
        simp [Goroutine.StaysInside, Goroutine.step, Goroutine.holding, Frame.holding,
          Frame.finish, Goroutine.addsAhead]
      | cons task rest =>
        simp [Goroutine.StaysInside, Goroutine.step, Goroutine.holding, Frame.holding,
          Frame.finish, Goroutine.addsAhead]
    | listReturn =>
      right; right; right
      simp [Goroutine.Releases, Goroutine.step, Goroutine.holding, Frame.holding,
        Frame.finish, Goroutine.addsAhead]

theorem Concurrent.sched_cases (c : Concurrent) (k : Nat) :
    c.step k = c ∨
    ∃ pre g post, c.goroutines = pre ++ g :: post ∧ pre.length = k ∧
      c.step k = ⟨(g.step c.shared).1, pre ++ (g.step c.shared).2 :: post⟩ := by
  cases h : c.goroutines[k]? with
  | none => left; simp [Concurrent.step, h]
  | some g =>
    right
    obtain ⟨pre, post, e, hl⟩ := exists_split_of_getElem? c.goroutines k g h
    refine ⟨pre, g, post, e, hl, ?_⟩
    simp only [Concurrent.step, h]
    rw [e, ← hl, set_middle]

theorem holders_split (pre post : List Goroutine) (g : Goroutine) :
    ((pre ++ g :: post).filter Goroutine.holding).length
      = (pre.filter Goroutine.holding).length + (if g.holding then 1 else 0)
        + (post.filter Goroutine.holding).length := by
  simp only [List.filter_append, List.filter_cons, List.length_append]
  (split <;> simp); omega

theorem not_holding_of_filter (l : List Goroutine)
    (h : (l.filter Goroutine.holding).length = 0) : ∀ g ∈ l, g.holding = false := by
  intro g hg
  have hnil : l.filter Goroutine.holding = [] := List.length_eq_zero.mp h
  rw [List.filter_eq_nil_iff] at hnil
  simpa using hnil g hg

theorem Goroutine.holding_of_frame (g : Goroutine) (f : Frame) (h : g.frame = some f)
    (hf : f.holding = true) : g.holding = true := by
  simp [Goroutine.holding, h, hf]

theorem Goroutine.frame_of_holding (g : Goroutine) (h : g.holding = true) :
    ∃ f, g.frame = some f ∧ f.holding = true := by
  cases hf : g.frame with
  | none => simp [Goroutine.holding, hf] at h
  | some f => exact ⟨f, rfl, by simpa [Goroutine.holding, hf] using h⟩

theorem stateAfter_snoc (ops : List Op) (op : Op) :
    stateAfter (ops ++ [op]) = (step (stateAfter ops) op).1 := by
  simp [stateAfter, run_append, run]

theorem Concurrent.mutexInv_init (programs : List (List Op)) : (Concurrent.init programs).Inv := by
  have hnone : ∀ g ∈ (Concurrent.init programs).goroutines, g.frame = none := by
    intro g hg
    simp only [Concurrent.init, List.mem_map] at hg
    obtain ⟨p, _, rfl⟩ := hg
    rfl
  refine ⟨?_, ?_, fun _ => rfl⟩
  · have : (Concurrent.init programs).goroutines.filter Goroutine.holding = [] := by
      rw [List.filter_eq_nil_iff]
      intro g hg
      simp [Goroutine.holding, hnone g hg]
    rw [this]
    rfl
  · intro g hg f hf
    rw [hnone g hg] at hf
    cases hf

theorem Concurrent.mutexInv_step (c : Concurrent) (k : Nat) (h : c.Inv) : (c.step k).Inv := by
  rcases Concurrent.sched_cases c k with e | ⟨pre, g, post, hg, _, e⟩
  · rw [e]; exact h
  · rw [e]
    obtain ⟨hcount, hfinish, hidle⟩ := h
    rw [hg, holders_split] at hcount
    rw [hg] at hfinish
    rcases Goroutine.statement_cases c.shared g with
      ⟨h1, h2, h3, _⟩ | ⟨op, h1, h2, h3, h4, h5, _⟩ | ⟨h1, h2, h3, h4, h5, _⟩ | ⟨h1, h2, h3, h4, _⟩
    · -- outside the body, before and after
      refine ⟨?_, ?_, ?_⟩
      · simp only [holders_split, h2, h3]
        simpa [h1] using hcount
      · intro x hx f hf hhold
        simp only [h3]
        have hxh := Goroutine.holding_of_frame x f hf hhold
        simp only [List.mem_append, List.mem_cons] at hx
        rcases hx with hx | rfl | hx
        · exact hfinish x (by simp [hx]) f hf hhold
        · rw [h2] at hxh; cases hxh
        · exact hfinish x (by simp [hx]) f hf hhold
      · simp only [h3]
        exact hidle
    · -- the mutex is taken
      simp only [h1, h2, Bool.false_eq_true, if_false] at hcount
      have hpre := not_holding_of_filter pre (by omega)
      have hpost := not_holding_of_filter post (by omega)
      have hpre0 : (pre.filter Goroutine.holding).length = 0 := by omega
      have hpost0 : (post.filter Goroutine.holding).length = 0 := by omega
      refine ⟨?_, ?_, ?_⟩
      · simp only [holders_split, h3, h4, hpre0, hpost0, if_true]
      · intro x hx f hf hhold
        have hxh := Goroutine.holding_of_frame x f hf hhold
        simp only [List.mem_append, List.mem_cons] at hx
        rcases hx with hx | rfl | hx
        · rw [hpre x hx] at hxh; cases hxh
        · simp only [h4, stateAfter_snoc]
          rw [← hidle h2]
          exact h5 f hf
        · rw [hpost x hx] at hxh; cases hxh
      · intro hmu
        simp [h4] at hmu
    · -- a statement of the body
      simp only [h1, if_true] at hcount
      have hmu : c.shared.mu = true := by
        cases hm : c.shared.mu with
        | true => rfl
        | false => rw [hm] at hcount; simp at hcount
      rw [hmu] at hcount
      simp only [if_true] at hcount
      have hpre := not_holding_of_filter pre (by omega)
      have hpost := not_holding_of_filter post (by omega)
      have hpre0 : (pre.filter Goroutine.holding).length = 0 := by omega
      have hpost0 : (post.filter Goroutine.holding).length = 0 := by omega
      refine ⟨?_, ?_, ?_⟩
      · simp only [holders_split, h2, h3, hmu, hpre0, hpost0, if_true]
      · intro x hx f' hf' hhold
        have hxh := Goroutine.holding_of_frame x f' hf' hhold
        simp only [List.mem_append, List.mem_cons] at hx
        rcases hx with hx | rfl | hx
        · rw [hpre x hx] at hxh; cases hxh
        · obtain ⟨f, hf, hfh⟩ := Goroutine.frame_of_holding g h1
          simp only [h4]
          rw [h5 f f' hf hf']
          exact hfinish g (by simp) f hf hfh
        · rw [hpost x hx] at hxh; cases hxh
      · intro hfree
        simp only [h3, hmu] at hfree
        cases hfree
    · -- the return and the deferred Unlock
      simp only [h1, if_true] at hcount
      have hmu : c.shared.mu = true := by
        cases hm : c.shared.mu with
        | true => rfl
        | false => rw [hm] at hcount; simp at hcount
      rw [hmu] at hcount
      simp only [if_true] at hcount
      have hpre := not_holding_of_filter pre (by omega)
      have hpost := not_holding_of_filter post (by omega)
      have hpre0 : (pre.filter Goroutine.holding).length = 0 := by omega
      have hpost0 : (post.filter Goroutine.holding).length = 0 := by omega
      refine ⟨?_, ?_, ?_⟩
      · simp [holders_split, h2, h3, hpre0, hpost0]
      · intro x hx f hf hhold
        have hxh := Goroutine.holding_of_frame x f hf hhold
        simp only [List.mem_append, List.mem_cons] at hx
        rcases hx with hx | rfl | hx
        · rw [hpre x hx] at hxh; cases hxh
        · rw [h2] at hxh; cases hxh
        · rw [hpost x hx] at hxh; cases hxh
      · intro _
        obtain ⟨f, hf, hfh⟩ := Goroutine.frame_of_holding g h1
        have e1 := hfinish g (by simp) f hf hfh
        rw [h4 f hf] at e1
        simp only [h3]
        cases hs : stateAfter c.shared.history with
        | mk ts =>
          rw [hs] at e1
          cases ht : c.shared.taskList with
          | mk us =>
            rw [ht] at e1
            simp only at e1
            rw [e1]

theorem Concurrent.mutexInv_exec (c : Concurrent) (sched : List Nat) (h : c.Inv) :
    (c.exec sched).Inv := by
  induction sched generalizing c with
  | nil => exact h
  | cons k ks ih => exact ih (c.step k) (Concurrent.mutexInv_step c k h)

theorem numAdds_append (a b : List Op) : numAdds (a ++ b) = numAdds a + numAdds b := by
  induction a with
  | nil => simp [numAdds]
  | cons op a ih =>
    show numAdds (op :: (a ++ b)) = _
    rw [numAdds_cons, numAdds_cons op a, ih]
    omega

theorem addsAhead_split (m : Shared) (pre post : List Goroutine) (g : Goroutine) :
    (Concurrent.mk m (pre ++ g :: post)).addsAhead
      = (pre.map Goroutine.addsAhead).sum + g.addsAhead
        + (post.map Goroutine.addsAhead).sum := by
  simp [Concurrent.addsAhead, Nat.add_assoc]

/-- The `AddTask` calls of the history and those still ahead add up to the
same number before and after a statement. -/
theorem Concurrent.adds_step (c : Concurrent) (k : Nat) :
    numAdds (c.step k).shared.history + (c.step k).addsAhead
      = numAdds c.shared.history + c.addsAhead := by
  rcases Concurrent.sched_cases c k with e | ⟨pre, g, post, hg, _, e⟩
  · rw [e]
  · have hc : c = ⟨c.shared, pre ++ g :: post⟩ := by
      cases c
      simp only [Concurrent.mk.injEq, true_and]
      exact hg
    rw [e, addsAhead_split]
    conv_rhs => rw [hc, addsAhead_split]
    rcases Goroutine.statement_cases c.shared g with
      ⟨_, _, h3, h4⟩ | ⟨op, _, _, _, h4, _, h6⟩ | ⟨_, _, _, h4, _, h6⟩ | ⟨_, _, h3, _, h5⟩
    · simp only [h3, h4]
    · simp only [h4, numAdds_append]
      omega
    · simp only [h4, h6]
    · simp only [h3, h5]

theorem Concurrent.adds_exec (c : Concurrent) (sched : List Nat) :
    numAdds (c.exec sched).shared.history + (c.exec sched).addsAhead
      = numAdds c.shared.history + c.addsAhead := by
  induction sched generalizing c with
  | nil => rfl
  | cons k ks ih =>
    show numAdds ((c.step k).exec ks).shared.history + ((c.step k).exec ks).addsAhead = _
    rw [ih, Concurrent.adds_step]

theorem Concurrent.adds_init (programs : List (List Op)) :
    numAdds (Concurrent.init programs).shared.history + (Concurrent.init programs).addsAhead
      = (programs.map numAdds).sum := by
  simp only [Concurrent.init, Concurrent.addsAhead, numAdds, List.map_map, Nat.zero_add]
  congr 1

theorem Concurrent.addsAhead_of_quiescent (c : Concurrent) (h : c.quiescent = true) :
    c.addsAhead = 0 := by
  simp only [Concurrent.quiescent, List.all_eq_true, Bool.and_eq_true] at h
  simp only [Concurrent.addsAhead]
  apply List.sum_eq_zero
  intro n hn
  simp only [List.mem_map] at hn
  obtain ⟨g, hg, rfl⟩ := hn
  obtain ⟨h1, h2⟩ := h g hg
  obtain ⟨frame, todo, results⟩ := g
  cases frame with
  | some f => simp at h1
  | none =>
    cases todo with
    | nil => rfl
    | cons op rest => simp at h2

theorem not_holding_of_quiescent (c : Concurrent) (h : c.quiescent = true) :
    (c.goroutines.filter Goroutine.holding).length = 0 := by
  simp only [Concurrent.quiescent, List.all_eq_true, Bool.and_eq_true] at h
  rw [List.length_eq_zero, List.filter_eq_nil_iff]
  intro g hg
  obtain ⟨h1, _⟩ := h g hg
  cases hf : g.frame with
  | some f => simp [hf] at h1
  | none => simp [Goroutine.holding, hf]

theorem holder_unique (l : List Goroutine)
    (h : (l.filter Goroutine.holding).length ≤ 1) (i j : Nat) (gi gj : Goroutine)
    (hi : l[i]? = some gi) (hj : l[j]? = some gj)
    (hgi : gi.holding = true) (hgj : gj.holding = true) : i = j := by
  obtain ⟨pre, post, e, hl⟩ := exists_split_of_getElem? l i gi hi
  rw [e, holders_split, hgi] at h
  simp only [if_true] at h
  have hpre := not_holding_of_filter pre (by omega)
  have hpost := not_holding_of_filter post (by omega)
  by_contra hne
  rcases Nat.lt_or_gt_of_ne hne with hlt | hgt
  · obtain ⟨n, hn⟩ : ∃ n, j - pre.length = n + 1 := ⟨j - pre.length - 1, by omega⟩
    rw [e, List.getElem?_append_right (by omega), hn, List.getElem?_cons_succ] at hj
    rw [hpost gj (List.getElem?_mem hj)] at hgj
    cases hgj
  · rw [e, List.getElem?_append_left (by omega)] at hj
    rw [hpre gj (List.getElem?_mem hj)] at hgj
    cases hgj

theorem Concurrent.reach_Inv (programs : List (List Op)) (sched : List Nat) :
    (Concurrent.reach programs sched).Inv :=
  Concurrent.mutexInv_exec _ sched (Concurrent.mutexInv_init programs)

/-! ## Lines of the printed text -/

theorem textLines_line (l rest : List Char) (h : '\n' ∉ l) :
    textLines (l ++ '\n' :: rest) = l :: textLines rest := by
  induction l with
  | nil => simp [textLines]
  | cons c l ih =>
    have hc : c ≠ '\n' := fun e => h (by simp [e])
    have hl : '\n' ∉ l := fun e => h (List.mem_cons_of_mem _ e)
    show textLines (c :: (l ++ '\n' :: rest)) = _
    simp only [textLines, if_neg hc, ih hl]

theorem digitChar_ne_lineFeed : ∀ k < 10, Nat.digitChar k ≠ '\n' := by
  decide

theorem toDigitsCore_no_lineFeed (fuel n : Nat) (ds : List Char) (h : '\n' ∉ ds) :
    '\n' ∉ Nat.toDigitsCore 10 fuel n ds := by
  induction fuel generalizing n ds with
  | zero => simpa [Nat.toDigitsCore] using h
  | succ fuel ih =>
    have hcons : '\n' ∉ Nat.digitChar (n % 10) :: ds := by
      intro hm
      rcases List.mem_cons.mp hm with e | e
      · exact digitChar_ne_lineFeed _ (Nat.mod_lt n (by decide)) e.symm
      · exact h e
    simp only [Nat.toDigitsCore]
    split
    · exact hcons
    · exact ih _ _ hcons

theorem repr_no_lineFeed (n : Nat) : '\n' ∉ (Nat.repr n).data := by
  simp only [Nat.repr, Nat.toDigits, List.asString]
  exact toDigitsCore_no_lineFeed _ _ [] (by simp)

theorem fmtD_no_lineFeed (n : Int) : '\n' ∉ (fmtD n).data := by
  unfold fmtD
  split
  · intro h
    simp only [String.data_append, List.mem_append] at h
    rcases h with h | h
    · revert h; decide
    · exact repr_no_lineFeed _ h
  · exact repr_no_lineFeed _

theorem taskLine_no_lineFeed (t : Task) (h : '\n' ∉ t.Description.data) :
    '\n' ∉ (taskLine t).data := by
  intro hm
  simp only [taskLine, String.data_append, List.mem_append, or_assoc] at hm
  rcases hm with hm | hm | hm | hm | hm | hm
  · revert hm; decide
  · exact fmtD_no_lineFeed _ hm
  · revert hm; decide
  · exact h hm
  · revert hm; decide
  · revert hm
    split <;> decide

theorem printedLines_unlines (ls : List String) (h : ∀ l ∈ ls, '\n' ∉ l.data) :
    printedLines (unlines ls) = ls := by
  induction ls with
  | nil => rfl
  | cons l ls ih =>
    have hl := h l (List.mem_cons_self _ _)
    have hls := ih (fun x hx => h x (List.mem_cons_of_mem _ hx))
    simp only [printedLines] at hls ⊢
    have e : (unlines (l :: ls)).data = l.data ++ '\n' :: (unlines ls).data := by
      simp only [unlines, String.data_append, List.append_assoc]
      rfl
    rw [e, textLines_line _ _ hl, List.map_cons, hls]

/-! ## Properties of the registry operations -/

/-- C1: for every registry and description `d`, `AddTask d` returns the current
length plus one, and the task sequence afterwards is the old sequence followed
by the single new task `{ID = old length + 1, Description = d, Done = false}`;
the length grows by exactly one.  `AddTask` is a total function without an
error result. -/
theorem AddTask_appends_one (tl : TaskList) (d : String) :
    (tl.AddTask d).2 = (tl.tasks.length : Int) + 1 ∧
    (tl.AddTask d).1.tasks
      = tl.tasks ++ [{ ID := (tl.tasks.length : Int) + 1, Description := d, Done := false }] ∧
    (tl.AddTask d).1.tasks.length = tl.tasks.length + 1 := by
  refine ⟨rfl, rfl, ?_⟩
  simp [TaskList.AddTask]

/-- C2: for every sequence of calls made on the empty registry, with `N` the
number of `AddTask` calls among them (and any `MarkAsDone` and `ListTasks`
calls in between), the IDs returned by the `AddTask` calls are `1, 2, ..., N`
in call order; they are `N` in number, without duplicates, an integer is among
them exactly when it lies in `1..N`, and the registry then holds `N` tasks. -/
theorem AddTask_ids_one_to_N (ops : List Op) :
    idsIssued ops = (List.range (numAdds ops)).map (fun (j : Nat) => (j : Int) + 1) ∧
    (idsIssued ops).length = numAdds ops ∧
    (idsIssued ops).Nodup ∧
    (∀ id : Int, id ∈ idsIssued ops ↔ 1 ≤ id ∧ id ≤ (numAdds ops : Int)) ∧
    (stateAfter ops).tasks.length = numAdds ops := by
  have h : idsIssued ops = (List.range (numAdds ops)).map (fun (j : Nat) => (j : Int) + 1) := by
    simp [idsIssued, run_issuedIDs, idsFrom, TaskList.empty]
  refine ⟨h, by simp [h], ?_, mem_idsIssued ops, stateAfter_length ops⟩
  rw [h]
  refine List.Nodup.map ?_ (List.nodup_range _)
  intro a b hab
  simpa using hab

/-- C3: in a registry reached from the empty one by a sequence of calls, for an
`id` that one of the `AddTask` calls returned, `MarkAsDone id` returns `nil`,
keeps the length, turns the task with that ID into the same task with
`Done = true` (every stored task with that ID is done afterwards) and leaves
every other task as it was.  Hence a worker that called `AddTask` and later,
after any further calls on the registry, marks the ID it got never sees an
error. -/
theorem MarkAsDone_issued_id_succeeds :
    (∀ (ops : List Op) (id : Int), id ∈ idsIssued ops →
      ((stateAfter ops).MarkAsDone id).2 = none ∧
      ((stateAfter ops).MarkAsDone id).1.tasks.length = (stateAfter ops).tasks.length ∧
      (∃ (i : Nat) (t : Task), (stateAfter ops).tasks[i]? = some t ∧ t.ID = id ∧
        ((stateAfter ops).MarkAsDone id).1.tasks[i]? = some { t with Done := true }) ∧
      (∀ t ∈ ((stateAfter ops).MarkAsDone id).1.tasks, t.ID = id → t.Done = true) ∧
      (∀ (j : Nat) (u : Task), (stateAfter ops).tasks[j]? = some u → u.ID ≠ id →
        ((stateAfter ops).MarkAsDone id).1.tasks[j]? = some u)) ∧
    (∀ (before : List Op) (d : String) (between : List Op),
      ((run ((stateAfter before).AddTask d).1 between).1.MarkAsDone
        ((stateAfter before).AddTask d).2).2 = none) := by
  have main : ∀ (ops : List Op) (id : Int), id ∈ idsIssued ops →
      ((stateAfter ops).MarkAsDone id).2 = none ∧
      ((stateAfter ops).MarkAsDone id).1.tasks.length = (stateAfter ops).tasks.length ∧
      (∃ (i : Nat) (t : Task), (stateAfter ops).tasks[i]? = some t ∧ t.ID = id ∧
        ((stateAfter ops).MarkAsDone id).1.tasks[i]? = some { t with Done := true }) ∧
      (∀ t ∈ ((stateAfter ops).MarkAsDone id).1.tasks, t.ID = id → t.Done = true) ∧
      (∀ (j : Nat) (u : Task), (stateAfter ops).tasks[j]? = some u → u.ID ≠ id →
        ((stateAfter ops).MarkAsDone id).1.tasks[j]? = some u) := by
    intro ops id hid
    have hpos := stateAfter_positional ops
    have hex := (mem_idsIssued_iff_stored ops id).mp hid
    rcases MarkAsDone_cases (stateAfter ops) id with ⟨hno, _⟩ | ⟨pre, t, post, ht, hpre, htid, h⟩
    · obtain ⟨t, ht, htid⟩ := hex
      exact absurd htid (hno t ht)
    · have hmid : (stateAfter ops).tasks[pre.length]? = some t := by
        rw [ht, getElem?_middle]
      refine ⟨by rw [h], MarkAsDone_length _ _, ⟨pre.length, t, hmid, htid, ?_⟩, ?_, ?_⟩
      · rw [h]; exact getElem?_middle pre _ post
      · intro u hu huid
        obtain ⟨k, hk, hget⟩ := List.getElem_of_mem hu
        have hk? : ((stateAfter ops).MarkAsDone id).1.tasks[k]? = some u := by
          rw [List.getElem?_eq_getElem hk, hget]
        by_cases hkp : k = pre.length
        · subst hkp
          rw [h] at hk?
          rw [show (TaskList.mk (pre ++ { t with Done := true } :: post)).tasks
                = pre ++ { t with Done := true } :: post from rfl, getElem?_middle] at hk?
          cases hk?
          rfl
        · exfalso
          obtain ⟨v, hv, hvid, _, _⟩ := MarkAsDone_getElem? (stateAfter ops) id k u hk?
          have e1 := hpos k v hv
          have e2 := hpos pre.length t hmid
          omega
      · intro j u hj hne
        have hjp : j ≠ pre.length := by
          intro e
          rw [e, hmid] at hj
          cases hj
          exact hne htid
        rw [h]
        show (pre ++ { t with Done := true } :: post)[j]? = some u
        rw [getElem?_off_middle pre t _ post j hjp, ← ht]
        exact hj
  refine ⟨main, ?_⟩
  intro before d between
  have e : (run ((stateAfter before).AddTask d).1 between).1
      = stateAfter (before ++ Op.add d :: between) := by
    simp [stateAfter, run_append, run, step]
  rw [e]
  refine (main _ _ ?_).1
  rw [mem_idsIssued]
  have hlen := stateAfter_length before
  have hn : numAdds (before ++ Op.add d :: between) = numAdds before + numAdds between + 1 := by
    have := run_length TaskList.empty (before ++ Op.add d :: between)
    rw [run_append] at this
    simp only [run, step] at this
    rw [run_length] at this
    simp only [TaskList.AddTask, List.length_append, List.length_singleton, run_length,
      TaskList.empty, List.length_nil] at this
    omega
  simp only [TaskList.AddTask, hlen, hn]
  push_cast
  omega

/-- Witness for C3: after `AddTask "a"`, `AddTask "b"`, `MarkAsDone 1` the ID 2
has been issued. -/
theorem MarkAsDone_issued_id_succeeds_witness :
    (2 : Int) ∈ idsIssued [Op.add "a", Op.add "b", Op.mark 1] ∧
    ((stateAfter [Op.add "a", Op.add "b", Op.mark 1]).MarkAsDone 2).2 = none :=
  ⟨by decide, (MarkAsDone_issued_id_succeeds.1 _ 2 (by decide)).1⟩

/-- C4: in a registry reached from the empty one by a sequence of calls, for an
`id` that none of the `AddTask` calls returned, `MarkAsDone id` returns the
task-not-found error and the registry afterwards is the registry before. -/
theorem MarkAsDone_unissued_id_fails (ops : List Op) (id : Int)
    (hid : id ∉ idsIssued ops) :
    (stateAfter ops).MarkAsDone id = (stateAfter ops, some (notFoundError id)) := by
  rcases MarkAsDone_cases (stateAfter ops) id with ⟨_, h⟩ | ⟨pre, t, post, ht, _, htid, _⟩
  · exact h
  · exfalso
    apply hid
    rw [mem_idsIssued_iff_stored]
    exact ⟨t, by rw [ht]; simp, htid⟩

/-- Witness for C4: after two `AddTask` calls the ID 3 has not been issued. -/
theorem MarkAsDone_unissued_id_fails_witness :
    (3 : Int) ∉ idsIssued [Op.add "a", Op.mark 1, Op.add "b"] ∧
    (stateAfter [Op.add "a", Op.mark 1, Op.add "b"]).MarkAsDone 3
      = (stateAfter [Op.add "a", Op.mark 1, Op.add "b"], some "task with ID 3 not found") :=
  ⟨by decide, MarkAsDone_unissued_id_fails _ 3 (by decide)⟩

/-- C5: whenever `MarkAsDone id` returns an error, its message is
`task with ID <id> not found` with `<id>` the decimal rendering of the
argument; zero is rendered `0` and a negative argument with a leading minus
sign. -/
theorem MarkAsDone_error_message :
    (∀ (tl : TaskList) (id : Int), (tl.MarkAsDone id).2 ≠ none →
      (tl.MarkAsDone id).2 = some ("task with ID " ++ fmtD id ++ " not found")) ∧
    fmtD 0 = "0" ∧ fmtD (-7) = "-7" ∧ fmtD 1234567890 = "1234567890" ∧
    (TaskList.empty.MarkAsDone 0).2 = some "task with ID 0 not found" ∧
    ((TaskList.mk [⟨1, "a", false⟩]).MarkAsDone (-12)).2 = some "task with ID -12 not found" := by
  refine ⟨?_, by decide, by decide, by decide, by decide, by decide⟩
  intro tl id hne
  rcases MarkAsDone_cases tl id with ⟨_, h⟩ | ⟨pre, t, post, _, _, _, h⟩
  · rw [h]; rfl
  · rw [h] at hne; exact absurd rfl hne

/-- Witness for C5: marking ID 5 in a registry of two tasks fails. -/
theorem MarkAsDone_error_message_witness :
    ((TaskList.mk [⟨1, "a", false⟩, ⟨2, "b", true⟩]).MarkAsDone 5).2 ≠ none ∧
    ((TaskList.mk [⟨1, "a", false⟩, ⟨2, "b", true⟩]).MarkAsDone 5).2
      = some "task with ID 5 not found" :=
  ⟨by decide, MarkAsDone_error_message.1 _ 5 (by decide)⟩

/-- C6: in every registry reached from the empty one by a sequence of calls
the task stored at position `i` has the ID `i + 1`; so every ID is positive,
IDs increase strictly along the storage order and two tasks with the same ID
sit at the same position.  Every call (`AddTask`, `MarkAsDone`, `ListTasks`)
keeps the positional property. -/
theorem ids_match_positions :
    (∀ ops : List Op, PositionalIDs (stateAfter ops) ∧
      (∀ t ∈ (stateAfter ops).tasks, 0 < t.ID) ∧
      (∀ (i j : Nat) (t u : Task), (stateAfter ops).tasks[i]? = some t →
        (stateAfter ops).tasks[j]? = some u → i < j → t.ID < u.ID) ∧
      (∀ (i j : Nat) (t u : Task), (stateAfter ops).tasks[i]? = some t →
        (stateAfter ops).tasks[j]? = some u → t.ID = u.ID → i = j)) ∧
    (∀ (tl : TaskList) (op : Op), PositionalIDs tl → PositionalIDs (step tl op).1) := by
  refine ⟨fun ops => ?_, PositionalIDs_step⟩
  have hpos := stateAfter_positional ops
  refine ⟨hpos, ?_, ?_, ?_⟩
  · intro t ht
    obtain ⟨i, hi, hget⟩ := List.getElem_of_mem ht
    have := hpos i t (by rw [List.getElem?_eq_getElem hi, hget])
    omega
  · intro i j t u hi hj hlt
    have e1 := hpos i t hi
    have e2 := hpos j u hj
    omega
  · intro i j t u hi hj he
    have e1 := hpos i t hi
    have e2 := hpos j u hj
    omega

/-- Witness for C6: `AddTask` on a registry of one task with ID 1. -/
theorem ids_match_positions_witness :
    PositionalIDs (stateAfter [Op.add "a"]) ∧
    PositionalIDs (step (stateAfter [Op.add "a"]) (Op.add "b")).1 :=
  ⟨(ids_match_positions.1 [Op.add "a"]).1,
   ids_match_positions.2 _ (Op.add "b") (stateAfter_positional [Op.add "a"])⟩

/-- Counterexample to C7: after `AddTask "x\ny"` the registry holds one task and
`ListTasks` prints two lines after the header, `[1] x` and `y - Not Done`;
and a registry of one task whose description contains a line feed prints the
very text that a registry of two tasks prints, so that the number of lines
printed is not the length of the registry. -/
theorem ListTasks_line_per_task_fails :
    (stateAfter [Op.add "x\ny"]).tasks = [⟨1, "x\ny", false⟩] ∧
    (stateAfter [Op.add "x\ny"]).ListTasks.2 = "Task List:\n[1] x\ny - Not Done\n" ∧
    printedLines (stateAfter [Op.add "x\ny"]).ListTasks.2
      = ["Task List:", "[1] x", "y - Not Done"] ∧
    (printedLines (stateAfter [Op.add "x\ny"]).ListTasks.2).tail.length
      ≠ (stateAfter [Op.add "x\ny"]).tasks.length ∧
    (stateAfter [Op.add "a - Not Done\n[2] b"]).ListTasks.2
      = (stateAfter [Op.add "a", Op.add "b"]).ListTasks.2 ∧
    (stateAfter [Op.add "a - Not Done\n[2] b"]).tasks.length
      ≠ (stateAfter [Op.add "a", Op.add "b"]).tasks.length := by
  refine ⟨by decide, by decide, by decide, by decide, by decide, by decide⟩

/-- C7, amended: for every registry, `ListTasks` writes the header line
`Task List:` and then, per task in storage order, the text
`[<ID>] <Description> - <status>` followed by a line feed, where `<status>` is
`Done` when the Done flag is set and `Not Done` otherwise.  When no description
contains a line feed, the lines of the printed text after the header are
exactly these texts, one line per task in storage order, and their number is
the length of the registry. -/
theorem ListTasks_printed_lines (tl : TaskList) :
    tl.ListTasks.2 = "Task List:\n" ++ unlines (tl.tasks.map taskLine) ∧
    (∀ t : Task, t.Done = true →
      taskLine t = "[" ++ fmtD t.ID ++ "] " ++ t.Description ++ " - " ++ "Done") ∧
    (∀ t : Task, t.Done = false →
      taskLine t = "[" ++ fmtD t.ID ++ "] " ++ t.Description ++ " - " ++ "Not Done") ∧
    ((∀ t ∈ tl.tasks, '\n' ∉ t.Description.data) →
      printedLines tl.ListTasks.2 = "Task List:" :: tl.tasks.map taskLine ∧
      (printedLines tl.ListTasks.2).tail.length = tl.tasks.length ∧
      (∀ (i : Nat) (t : Task), tl.tasks[i]? = some t →
        (printedLines tl.ListTasks.2).tail[i]? = some (taskLine t))) := by
  have hout : tl.ListTasks.2 = "Task List:\n" ++ unlines (tl.tasks.map taskLine) := by
    simp only [TaskList.ListTasks, listLoop_eq]
    rfl
  refine ⟨hout, ?_, ?_, ?_⟩
  · intro t h
    simp [taskLine, h]
  · intro t h
    simp [taskLine, h]
  · intro hdesc
    have hlines : printedLines tl.ListTasks.2 = "Task List:" :: tl.tasks.map taskLine := by
      have e : tl.ListTasks.2 = unlines ("Task List:" :: tl.tasks.map taskLine) := by
        simp only [TaskList.ListTasks, listLoop_eq]
        rfl
      rw [e]
      apply printedLines_unlines
      intro l hl
      rcases List.mem_cons.mp hl with rfl | hl
      · decide
      · obtain ⟨t, ht, rfl⟩ := List.mem_map.mp hl
        exact taskLine_no_lineFeed t (hdesc t ht)
    refine ⟨hlines, ?_, ?_⟩
    · rw [hlines]
      simp
    · intro i t hi
      rw [hlines]
      simp [hi]

/-- Witness for the amended C7: the listing of a registry with one open and one
finished task, neither description with a line feed. -/
theorem ListTasks_printed_lines_witness :
    (∀ t ∈ (TaskList.mk [⟨1, "a", false⟩, ⟨2, "b", true⟩]).tasks, '\n' ∉ t.Description.data) ∧
    printedLines (TaskList.mk [⟨1, "a", false⟩, ⟨2, "b", true⟩]).ListTasks.2
      = ["Task List:", "[1] a - Not Done", "[2] b - Done"] ∧
    (printedLines (TaskList.mk [⟨1, "a", false⟩, ⟨2, "b", true⟩]).ListTasks.2).tail.length = 2 :=
  ⟨by decide,
   ((ListTasks_printed_lines (TaskList.mk [⟨1, "a", false⟩, ⟨2, "b", true⟩])).2.2.2
      (by decide)).1.trans (by decide),
   ((ListTasks_printed_lines (TaskList.mk [⟨1, "a", false⟩, ⟨2, "b", true⟩])).2.2.2
      (by decide)).2.1⟩

/-- C8: for every registry and every sequence of `MarkAsDone` calls (any IDs, in
any order, failing or not) the length and the sequence of (ID, Description)
pairs in storage order stay what they were, so the listing afterwards is the
listing of the same tasks in the same order with the new Done flags as the only
difference; a single `MarkAsDone` keeps the ID and the description at every
position. -/
theorem MarkAsDone_preserves_order (tl : TaskList) (ids : List Int) :
    (run tl (ids.map Op.mark)).1.tasks.length = tl.tasks.length ∧
    (run tl (ids.map Op.mark)).1.tasks.map Task.key = tl.tasks.map Task.key ∧
    (run tl (ids.map Op.mark)).1.ListTasks.2
      = "Task List:\n" ++ unlines (List.zipWith
          (fun t u => taskLine { t with Done := u.Done })
          tl.tasks (run tl (ids.map Op.mark)).1.tasks) ∧
    (∀ (id : Int) (j : Nat) (u : Task), (tl.MarkAsDone id).1.tasks[j]? = some u →
      ∃ v, tl.tasks[j]? = some v ∧ v.ID = u.ID ∧ v.Description = u.Description) := by
  have hk := run_marks_keys tl ids
  refine ⟨?_, hk, ?_, ?_⟩
  · have := congrArg List.length hk
    simpa using this
  · simp only [TaskList.ListTasks, listLoop_eq, taskLine_of_keys _ _ hk]
    rfl
  · intro id j u hu
    obtain ⟨v, hv, h1, h2, _⟩ := MarkAsDone_getElem? tl id j u hu
    exact ⟨v, hv, h1, h2⟩

/-- Witness for C8: marking 2, then an unknown ID, then 1 in a registry of two
tasks. -/
theorem MarkAsDone_preserves_order_witness :
    ((TaskList.mk [⟨1, "a", false⟩, ⟨2, "b", false⟩]).MarkAsDone 2).1.tasks[1]?
      = some ⟨2, "b", true⟩ ∧
    ∃ v, (TaskList.mk [⟨1, "a", false⟩, ⟨2, "b", false⟩]).tasks[1]? = some v ∧
      v.ID = 2 ∧ v.Description = "b" :=
  ⟨by decide,
   (MarkAsDone_preserves_order (TaskList.mk [⟨1, "a", false⟩, ⟨2, "b", false⟩]) [2, 7, 1]).2.2.2
      2 1 ⟨2, "b", true⟩ (by decide)⟩

/-! ## Properties of the workers and of `main` -/

/-- C9: for every list of `N` descriptions the `N` workers can all finish, and
for every interleaving of their atomic registry calls (each worker calls
`AddTask` with its description and later `MarkAsDone` with the ID it got, on
an initially empty registry), once all workers have finished the registry
holds exactly `N` tasks, their IDs are `1..N`, every `MarkAsDone` call returned
`nil`, every task has `Done = true`, and the listing printed by `main` has the
status `Done` on every task line. -/
theorem workers_finish_all_done :
    (∀ descs : List String, ∃ sched : List Nat, (finalState descs sched).allFinished = true) ∧
    (∀ (descs : List String) (sched : List Nat), (finalState descs sched).allFinished = true →
      (finalState descs sched).taskList.tasks.length = descs.length ∧
      (finalState descs sched).taskList.tasks.map Task.ID
        = (List.range descs.length).map (fun (j : Nat) => (j : Int) + 1) ∧
      (∀ w ∈ (finalState descs sched).workers, ∃ d id, w = Worker.finished d id none) ∧
      (∀ t ∈ (finalState descs sched).taskList.tasks, t.Done = true) ∧
      main descs sched = some ("Task List:\n" ++ unlines
        ((finalState descs sched).taskList.tasks.map
          (fun t => "[" ++ fmtD t.ID ++ "] " ++ t.Description ++ " - " ++ "Done")))) := by
  constructor
  · intro descs
    refine ⟨seqSched 0 descs.length, ?_⟩
    have := seqSched_finishes descs [] TaskList.empty rfl
    simpa [finalState, System.init] using this
  · intro descs sched hfin
    obtain ⟨h1, h2, h3, h4, _⟩ := finalState_summary descs sched hfin
    exact ⟨h1, h2, h3, h4, main_of_allFinished descs sched hfin h4⟩

/-- Witness for C9: three workers, the third one first, the calls of the
workers interleaved. -/
theorem workers_finish_all_done_witness :
    (finalState ["A", "B", "C"] [2, 0, 2, 1, 0, 1]).allFinished = true ∧
    (finalState ["A", "B", "C"] [2, 0, 2, 1, 0, 1]).taskList.tasks.length = 3 ∧
    ∀ t ∈ (finalState ["A", "B", "C"] [2, 0, 2, 1, 0, 1]).taskList.tasks, t.Done = true :=
  ⟨by decide,
   (workers_finish_all_done.2 ["A", "B", "C"] [2, 0, 2, 1, 0, 1] (by decide)).1,
   (workers_finish_all_done.2 ["A", "B", "C"] [2, 0, 2, 1, 0, 1] (by decide)).2.2.2.1⟩

/-- Counterexample to C10: when the worker of "B" is the first to call
`AddTask`, all three workers finish and the task with ID 1 has the description
"B", the task with ID 2 the description "A". -/
theorem descriptions_by_id_fails :
    (finalState ["A", "B", "C"] [1, 0, 2, 1, 0, 2]).allFinished = true ∧
    main ["A", "B", "C"] [1, 0, 2, 1, 0, 2]
      = some "Task List:\n[1] B - Done\n[2] A - Done\n[3] C - Done\n" ∧
    (finalState ["A", "B", "C"] [1, 0, 2, 1, 0, 2]).taskList.tasks.map Task.key
      = [(1, "B"), (2, "A"), (3, "C")] ∧
    ¬ (∀ sched : List Nat, (finalState ["A", "B", "C"] sched).allFinished = true →
        (finalState ["A", "B", "C"] sched).taskList.tasks.map Task.key
          = [(1, "A"), (2, "B"), (3, "C")]) := by
  refine ⟨by decide, by decide, by decide, ?_⟩
  intro h
  exact absurd (h [1, 0, 2, 1, 0, 2] (by decide)) (by decide)

/-- C10, amended: for the descriptions "A", "B", "C" and every interleaving of
the three workers, once all have finished the tasks have the IDs 1, 2, 3, all
are done, each of "A", "B", "C" is the description of exactly one task, and the
task with ID `k` has the description of the worker whose `AddTask` call was the
`k`-th; when the `AddTask` calls happen in launch order the listing shows "A"
for ID 1, "B" for ID 2 and "C" for ID 3. -/
theorem descriptions_follow_AddTask_order (sched : List Nat)
    (hfin : (finalState ["A", "B", "C"] sched).allFinished = true) :
    (finalState ["A", "B", "C"] sched).taskList.tasks.map Task.ID = [1, 2, 3] ∧
    (∀ t ∈ (finalState ["A", "B", "C"] sched).taskList.tasks, t.Done = true) ∧
    ((finalState ["A", "B", "C"] sched).taskList.tasks.map Task.Description).Perm
      ["A", "B", "C"] ∧
    (finalState ["A", "B", "C"] sched).taskList.tasks.map Task.Description
      = (addOrder 3 [] sched).map (fun k => ["A", "B", "C"].getD k "") ∧
    (addOrder 3 [] sched = [0, 1, 2] →
      main ["A", "B", "C"] sched
        = some "Task List:\n[1] A - Done\n[2] B - Done\n[3] C - Done\n") := by
  obtain ⟨_, hids, _, hdone, hperm⟩ := finalState_summary ["A", "B", "C"] sched hfin
  have hord := finalState_order ["A", "B", "C"] sched
  have hids' : (finalState ["A", "B", "C"] sched).taskList.tasks.map Task.ID = [1, 2, 3] := by
    rw [hids]; decide
  refine ⟨hids', hdone, hperm, hord, ?_⟩
  intro hlaunch
  have hdesc : (finalState ["A", "B", "C"] sched).taskList.tasks.map Task.Description
      = ["A", "B", "C"] := by
    rw [hord]
    show (addOrder 3 [] sched).map _ = _
    rw [hlaunch]
    rfl
  rw [main_of_allFinished _ _ hfin hdone, tasks_of_columns _ hids' hdesc hdone]
  decide

/-- Witness for the amended C10: the workers call `AddTask` in launch order and
finish in another order. -/
theorem descriptions_follow_AddTask_order_witness :
    (finalState ["A", "B", "C"] [0, 1, 2, 2, 0, 1]).allFinished = true ∧
    addOrder 3 [] [0, 1, 2, 2, 0, 1] = [0, 1, 2] ∧
    main ["A", "B", "C"] [0, 1, 2, 2, 0, 1]
      = some "Task List:\n[1] A - Done\n[2] B - Done\n[3] C - Done\n" :=
  ⟨by decide, by decide,
   (descriptions_follow_AddTask_order [0, 1, 2, 2, 0, 1] (by decide)).2.2.2.2 (by decide)⟩

/-! ## Further properties of `MarkAsDone` and `ListTasks` -/

/-- C12: in a registry reached from the empty one by a sequence of calls, for
every integer `id`, `MarkAsDone id` returns `nil` if and only if
`1 ≤ id ≤ number of tasks`; it returns the not-found error for `id = 0`, for
every negative `id`, and for every `id` on the empty registry. -/
theorem MarkAsDone_succeeds_iff_in_range :
    (∀ (ops : List Op) (id : Int),
      ((stateAfter ops).MarkAsDone id).2 = none
        ↔ 1 ≤ id ∧ id ≤ ((stateAfter ops).tasks.length : Int)) ∧
    (∀ (ops : List Op) (id : Int), id ≤ 0 →
      ((stateAfter ops).MarkAsDone id).2 = some (notFoundError id)) ∧
    (∀ id : Int, (TaskList.empty.MarkAsDone id).2 = some (notFoundError id)) := by
  have key : ∀ (ops : List Op) (id : Int),
      ((stateAfter ops).MarkAsDone id).2 = none
        ↔ 1 ≤ id ∧ id ≤ ((stateAfter ops).tasks.length : Int) := by
    intro ops id
    rw [← PositionalIDs_mem_iff _ (stateAfter_positional ops)]
    rcases MarkAsDone_cases (stateAfter ops) id with ⟨hno, h⟩ | ⟨pre, t, post, ht, _, htid, h⟩
    · rw [h]
      constructor
      · intro e; cases e
      · rintro ⟨t, ht, htid⟩
        exact absurd htid (hno t ht)
    · rw [h]
      exact ⟨fun _ => ⟨t, by rw [ht]; simp, htid⟩, fun _ => rfl⟩
  refine ⟨key, ?_, ?_⟩
  · intro ops id hid
    rcases MarkAsDone_cases (stateAfter ops) id with ⟨_, h⟩ | ⟨pre, t, post, _, _, _, h⟩
    · rw [h]
    · exfalso
      have := (key ops id).mp (by rw [h])
      omega
  · intro id
    rfl

/-- Witness for C12: ID 0 in a registry of two tasks. -/
theorem MarkAsDone_succeeds_iff_in_range_witness :
    ((0 : Int) ≤ 0) ∧
    ((stateAfter [Op.add "a", Op.add "b"]).MarkAsDone 0).2 = some "task with ID 0 not found" :=
  ⟨by decide, MarkAsDone_succeeds_iff_in_range.2.1 [Op.add "a", Op.add "b"] 0 (by decide)⟩

/-- C13: completion is never undone.  For every registry and every single call
(`AddTask`, `MarkAsDone` with any ID, `ListTasks`) a task that has `Done = true`
before the call is found unchanged at the same position after it, and the same
holds along every sequence of calls. -/
theorem done_is_never_undone :
    (∀ (tl : TaskList) (op : Op) (i : Nat) (t : Task),
      tl.tasks[i]? = some t → t.Done = true → (step tl op).1.tasks[i]? = some t) ∧
    (∀ (tl : TaskList) (ops : List Op) (i : Nat) (t : Task),
      tl.tasks[i]? = some t → t.Done = true → (run tl ops).1.tasks[i]? = some t) := by
  refine ⟨step_done_getElem?, ?_⟩
  intro tl ops
  induction ops generalizing tl with
  | nil => intro i t h _; exact h
  | cons op ops ih =>
    intro i t h hd
    exact ih (step tl op).1 i t (step_done_getElem? tl op i t h hd) hd

/-- Witness for C13: the finished second task stays when the first task is
marked and a third one is added. -/
theorem done_is_never_undone_witness :
    (TaskList.mk [⟨1, "a", false⟩, ⟨2, "b", true⟩]).tasks[1]? = some ⟨2, "b", true⟩ ∧
    (run (TaskList.mk [⟨1, "a", false⟩, ⟨2, "b", true⟩])
      [Op.mark 1, Op.add "c", Op.mark 2, Op.list, Op.mark 9]).1.tasks[1]?
        = some ⟨2, "b", true⟩ :=
  ⟨by decide,
   done_is_never_undone.2 (TaskList.mk [⟨1, "a", false⟩, ⟨2, "b", true⟩])
     [Op.mark 1, Op.add "c", Op.mark 2, Op.list, Op.mark 9] 1 ⟨2, "b", true⟩
     (by decide) rfl⟩

/-- C14: `MarkAsDone` is idempotent.  For every registry and every `id`, a
second `MarkAsDone id` right after a first one returns what the first returned
(`nil` again, or the same not-found error again) and leaves the registry as
the first call left it. -/
theorem MarkAsDone_idempotent (tl : TaskList) (id : Int) :
    ((tl.MarkAsDone id).1.MarkAsDone id).2 = (tl.MarkAsDone id).2 ∧
    ((tl.MarkAsDone id).1.MarkAsDone id).1 = (tl.MarkAsDone id).1 := by
  rw [MarkAsDone_eq (tl.MarkAsDone id).1 id, MarkAsDone_eq tl id]
  simp only [markFirst_any, markFirst_idem, and_self]

/-- C15: `MarkAsDone` calls commute.  For every registry and every two IDs `a`
and `b`, `MarkAsDone a` followed by `MarkAsDone b` ends in the same registry as
`MarkAsDone b` followed by `MarkAsDone a`, and the call for `a` returns the
same result in both orders, as does the call for `b`. -/
theorem MarkAsDone_commute (tl : TaskList) (a b : Int) :
    ((tl.MarkAsDone a).1.MarkAsDone b).1 = ((tl.MarkAsDone b).1.MarkAsDone a).1 ∧
    (tl.MarkAsDone a).2 = ((tl.MarkAsDone b).1.MarkAsDone a).2 ∧
    ((tl.MarkAsDone a).1.MarkAsDone b).2 = (tl.MarkAsDone b).2 := by
  rw [MarkAsDone_eq (tl.MarkAsDone a).1 b, MarkAsDone_eq (tl.MarkAsDone b).1 a,
    MarkAsDone_eq tl a, MarkAsDone_eq tl b]
  simp only [markFirst_any, markFirst_comm a b, and_self]

/-- C16: `ListTasks` is read-only.  For every registry the task sequence after
`ListTasks` is the one before (same length, same tasks), and a second call
right after the first prints the same text. -/
theorem ListTasks_read_only (tl : TaskList) :
    tl.ListTasks.1 = tl ∧
    tl.ListTasks.1.tasks.length = tl.tasks.length ∧
    (∀ i : Nat, tl.ListTasks.1.tasks[i]? = tl.tasks[i]?) ∧
    tl.ListTasks.1.ListTasks.2 = tl.ListTasks.2 :=
  ⟨rfl, rfl, fun _ => rfl, rfl⟩

/-- C17: for an arbitrary task sequence (IDs may repeat), `MarkAsDone id` returns
the error exactly when no task has the ID `id`, and then changes nothing;
otherwise it returns `nil`, and the first position whose task has the ID `id`
now holds that task with `Done = true` while every other position, later tasks
with the same ID included, holds what it held before. -/
theorem MarkAsDone_marks_first_match (tl : TaskList) (id : Int) :
    ((tl.MarkAsDone id).2 ≠ none ↔ ∀ t ∈ tl.tasks, t.ID ≠ id) ∧
    ((tl.MarkAsDone id).2 ≠ none → tl.MarkAsDone id = (tl, some (notFoundError id))) ∧
    ((tl.MarkAsDone id).2 = none →
      ∃ (i : Nat) (t : Task), tl.tasks[i]? = some t ∧ t.ID = id ∧
        (∀ (j : Nat) (u : Task), j < i → tl.tasks[j]? = some u → u.ID ≠ id) ∧
        (tl.MarkAsDone id).1.tasks[i]? = some { t with Done := true } ∧
        (∀ j : Nat, j ≠ i → (tl.MarkAsDone id).1.tasks[j]? = tl.tasks[j]?) ∧
        (tl.MarkAsDone id).1.tasks.length = tl.tasks.length) := by
  rcases MarkAsDone_cases tl id with ⟨hno, h⟩ | ⟨pre, t, post, ht, hpre, htid, h⟩
  · refine ⟨⟨fun _ => hno, fun _ => by rw [h]; simp⟩, fun _ => h, ?_⟩
    intro e
    rw [h] at e
    cases e
  · refine ⟨⟨fun e => absurd (by rw [h]) e, fun hno => ?_⟩, fun e => absurd (by rw [h]) e, ?_⟩
    · exact absurd htid (hno t (by rw [ht]; simp))
    · intro _
      refine ⟨pre.length, t, by rw [ht, getElem?_middle], htid, ?_, ?_, ?_, ?_⟩
      · intro j u hj hu
        rw [ht, List.getElem?_append_left hj] at hu
        exact hpre u (List.getElem?_mem hu)
      · rw [h]
        exact getElem?_middle pre _ post
      · intro j hj
        rw [h, ht]
        exact getElem?_off_middle pre t _ post j hj
      · rw [h, ht]
        simp

/-- Witness for C17: two tasks share the ID 7; only the first of them is
marked. -/
theorem MarkAsDone_marks_first_match_witness :
    ((TaskList.mk [⟨4, "a", false⟩, ⟨7, "b", false⟩, ⟨7, "c", false⟩]).MarkAsDone 7).2 = none ∧
    ((TaskList.mk [⟨4, "a", false⟩, ⟨7, "b", false⟩, ⟨7, "c", false⟩]).MarkAsDone 7).1.tasks
      = [⟨4, "a", false⟩, ⟨7, "b", true⟩, ⟨7, "c", false⟩] ∧
    ∃ (i : Nat) (t : Task),
      (TaskList.mk [⟨4, "a", false⟩, ⟨7, "b", false⟩, ⟨7, "c", false⟩]).tasks[i]? = some t ∧
      t.ID = 7 :=
  ⟨by decide, by decide,
   match (MarkAsDone_marks_first_match
      (TaskList.mk [⟨4, "a", false⟩, ⟨7, "b", false⟩, ⟨7, "c", false⟩]) 7).2.2 (by decide) with
   | ⟨i, t, h1, h2, _⟩ => ⟨i, t, h1, h2⟩⟩

/-! ## Mutual exclusion -/

/-- C11: with the methods executed statement by statement and the goroutines
interleaved in any way, at most one goroutine at a time is inside the body of
`AddTask`, `MarkAsDone` or `ListTasks` (between `Lock` and the deferred
`Unlock`), and while one is the mutex is taken; whenever the mutex is free the
registry is what the calls made so far leave when executed one after the other
in the order in which they took the mutex.  So no `AddTask` is lost: once all
goroutines have returned, the length of the registry is the number of
`AddTask` calls made, and `N` goroutines that each call `AddTask` once leave
`N` tasks. -/
theorem mutex_serializes_calls :
    (∀ (programs : List (List Op)) (sched : List Nat) (i j : Nat) (gi gj : Goroutine),
      (Concurrent.reach programs sched).goroutines[i]? = some gi →
      (Concurrent.reach programs sched).goroutines[j]? = some gj →
      gi.holding = true → gj.holding = true → i = j) ∧
    (∀ (programs : List (List Op)) (sched : List Nat),
      ∀ g ∈ (Concurrent.reach programs sched).goroutines,
        g.holding = true → (Concurrent.reach programs sched).shared.mu = true) ∧
    (∀ (programs : List (List Op)) (sched : List Nat),
      (Concurrent.reach programs sched).shared.mu = false →
        (Concurrent.reach programs sched).shared.taskList
          = stateAfter (Concurrent.reach programs sched).shared.history) ∧
    (∀ (programs : List (List Op)) (sched : List Nat),
      (Concurrent.reach programs sched).quiescent = true →
        (Concurrent.reach programs sched).shared.taskList.tasks.length
          = (programs.map numAdds).sum) ∧
    (∀ (descs : List String) (sched : List Nat),
      (Concurrent.reach (descs.map (fun d => [Op.add d])) sched).quiescent = true →
        (Concurrent.reach (descs.map (fun d => [Op.add d])) sched).shared.taskList.tasks.length
          = descs.length) := by
  have hcount : ∀ (programs : List (List Op)) (sched : List Nat),
      (Concurrent.reach programs sched).quiescent = true →
        (Concurrent.reach programs sched).shared.taskList.tasks.length
          = (programs.map numAdds).sum := by
    intro programs sched hq
    have hinv := Concurrent.reach_Inv programs sched
    have hfree : (Concurrent.reach programs sched).shared.mu = false := by
      have h0 := hinv.holders
      rw [not_holding_of_quiescent _ hq] at h0
      cases hm : (Concurrent.reach programs sched).shared.mu with
      | false => rfl
      | true => rw [hm] at h0; simp at h0
    have hadds := Concurrent.adds_exec (Concurrent.init programs) sched
    rw [Concurrent.adds_init] at hadds
    have hzero := Concurrent.addsAhead_of_quiescent _ hq
    rw [hinv.idle hfree, stateAfter_length]
    simp only [Concurrent.reach] at hzero ⊢
    omega
  refine ⟨?_, ?_, ?_, hcount, ?_⟩
  · intro programs sched i j gi gj hi hj hgi hgj
    have h := (Concurrent.reach_Inv programs sched).holders
    refine holder_unique _ ?_ i j gi gj hi hj hgi hgj
    rw [h]
    split <;> omega
  · intro programs sched g hg hhold
    have h := (Concurrent.reach_Inv programs sched).holders
    cases hm : (Concurrent.reach programs sched).shared.mu with
    | true => rfl
    | false =>
      rw [hm] at h
      have := not_holding_of_filter _ (by simpa using h) g hg
      rw [hhold] at this
      cases this
  · intro programs sched
    exact (Concurrent.reach_Inv programs sched).idle
  · intro descs sched hq
    rw [hcount _ sched hq]
    clear hq
    induction descs with
    | nil => rfl
    | cons d ds ih =>
      simp only [List.map_cons, List.sum_cons, List.length_cons, ih, numAdds]
      omega

/-- Witness for C11: two goroutines call `AddTask`; the second one reaches
`Lock` while the first is inside the body and has to wait. -/
theorem mutex_serializes_calls_witness :
    (Concurrent.reach [[Op.add "a"], [Op.add "b"]]
      [0, 0, 0, 1, 1, 0, 0, 0, 1, 1, 1, 1, 1]).quiescent = true ∧
    (Concurrent.reach [[Op.add "a"], [Op.add "b"]]
      [0, 0, 0, 1, 1, 0, 0, 0, 1, 1, 1, 1, 1]).shared.taskList.tasks.length = 2 ∧
    (Concurrent.reach [[Op.add "a"], [Op.add "b"]] [0, 0, 0, 1, 1]).goroutines[1]?
      = some ⟨some (Frame.addLock "b"), [], []⟩ :=
  ⟨by decide,
   mutex_serializes_calls.2.2.2.1 [[Op.add "a"], [Op.add "b"]]
     [0, 0, 0, 1, 1, 0, 0, 0, 1, 1, 1, 1, 1] (by decide),
   by decide⟩

end TaskRegistry
